import Mathlib

/-!
# Verification of the handmade JSON parser

A shallow embedding of the C++ sources `rcc_common.cpp`, `rcc_json_parser.cpp`
and `rcc_json_object.cpp` of the `handmade_json_parser` repository, together
with theorems settling the specification claims.

Modelling conventions:
* A C byte buffer is a `List Char`; `readChar` models `InputJsonBuffer[i]`.
  A read past the end of the list yields `'\x00'`, modelling the in-memory
  layout the reference code relies on (the tokenizer has no length parameter
  and stops only at a NUL byte).  Which indices are read at all is settled
  separately by the instrumented tokenizer `tokenizeStringReads`.
* A `json_member*` linked list (chained through the `Next` pointers) is a
  `List json_member`; the null pointer is `[]`.  An operation that would
  dereference a null pointer, read uninitialised memory or reinterpret an
  inactive union field returns `none`.
* `double` values are modelled as `ℚ`; `atof` is modelled by the exact
  decimal-reading function `atofQ`, and the `printf` formats `%d` / `%.4lf`
  by `intRepr` / `fmt4`.
* The fixed 64-byte token text capacity of `json_token::String` is modelled
  by returning `none` (undefined behaviour: `strncpy` writes past the
  buffer) when a string or number token is 64 bytes or longer.
* The parser's recursion and loops are driven by an explicit fuel parameter
  (`none` when fuel runs out); the C code can genuinely diverge on some
  truncated inputs, so fuel is essential, not a convenience.
* Freeing of heap nodes (`destroyJsonMember`, `deleteJsonMember`) is
  modelled by returning the trace of `free` events in the order the code
  performs them.
-/

/-! ## Character and string utilities (`rcc_common.cpp`) -/

/-- `isWhiteSpace` from `rcc_common.cpp`: space, newline, tab, carriage return. -/
def isWhiteSpace (c : Char) : Bool :=
  c = ' ' || c = '\n' || c = '\t' || c = '\r'

/-- `isNumber` from `rcc_common.cpp`: the ten decimal digit characters. -/
def isNumber (c : Char) : Bool :=
  c = '0' || c = '1' || c = '2' || c = '3' || c = '4' ||
  c = '5' || c = '6' || c = '7' || c = '8' || c = '9'

/-- The truncation of a rational toward zero, modelling the C conversion of
a `double` to an integer (used by `modf` and the `(int32_t)` cast). -/
def truncQ (q : ℚ) : Int := if q < 0 then -⌊-q⌋ else ⌊q⌋

/-- `isFractionalPartZero` from `rcc_common.cpp`: `modf` splits the value
into integral and fractional parts (truncation toward zero) and the
fractional part is compared against the threshold `1e-9`. -/
def isFractionalPartZero (Number : ℚ) : Bool :=
  |Number - (truncQ Number : ℚ)| < 1 / 1000000000

/-! ## Decimal text conversions

`atof` (used by the parser) and the `printf` formats `%d` and `%.4lf`
(used by the serializer) are modelled exactly over `ℚ`. -/

/-- The decimal digit character for `d % 10`. -/
def digitChar (d : Nat) : Char :=
  match d with
  | 0 => '0' | 1 => '1' | 2 => '2' | 3 => '3' | 4 => '4'
  | 5 => '5' | 6 => '6' | 7 => '7' | 8 => '8' | _ => '9'

/-- The numeric value of a decimal digit character (`0` for other input). -/
def digitVal (c : Char) : Nat :=
  match c with
  | '0' => 0 | '1' => 1 | '2' => 2 | '3' => 3 | '4' => 4
  | '5' => 5 | '6' => 6 | '7' => 7 | '8' => 8 | '9' => 9
  | _ => 0

/-- Fuelled digit production (structural recursion so that the kernel can
evaluate it; `natToDigits` supplies ample fuel). -/
def natToDigitsGo : Nat → Nat → List Char
  | 0, _ => []
  | _ + 1, 0 => []
  | f + 1, n + 1 => natToDigitsGo f ((n + 1) / 10) ++ [digitChar ((n + 1) % 10)]

/-- The decimal digits of a positive natural number, most significant first
(`[]` for `0`). -/
def natToDigits (n : Nat) : List Char := natToDigitsGo n n

/-- Decimal rendering of a natural number. -/
def natRepr (n : Nat) : String :=
  if n = 0 then "0" else String.mk (natToDigits n)

/-- Decimal rendering of an integer, modelling `printf("%d", ·)`. -/
def intRepr (n : Int) : String :=
  if n < 0 then "-" ++ natRepr n.natAbs else natRepr n.natAbs

/-- The value of a string of decimal digits, most significant first. -/
def natOfDigits (l : List Char) : Nat :=
  l.foldl (fun acc c => 10 * acc + digitVal c) 0

/-- Exact model of `atof`: optional sign, integer digits, optional `.` and
fraction digits, optional exponent.  The reference tokenizer only feeds it
runs of digits, `-`, `.` and `e`. -/
def atofQ (s : String) : ℚ :=
  let l := s.toList
  let sign : ℚ := if l.head? = some '-' then -1 else 1
  let l1 := if l.head? = some '-' then l.tail else l
  let ds := l1.takeWhile isNumber
  let l2 := l1.dropWhile isNumber
  let ip : ℚ := (natOfDigits ds : ℚ)
  let fr : ℚ :=
    if l2.head? = some '.' then
      let fs := l2.tail.takeWhile isNumber
      (natOfDigits fs : ℚ) / ((10 : ℚ) ^ fs.length)
    else 0
  let l3 := if l2.head? = some '.' then l2.tail.dropWhile isNumber else l2
  let ex : ℚ :=
    if l3.head? = some 'e' ∨ l3.head? = some 'E' then
      let l4 := l3.tail
      let esign : Int := if l4.head? = some '-' then -1 else 1
      let l5 := if l4.head? = some '-' ∨ l4.head? = some '+' then l4.tail else l4
      (10 : ℚ) ^ (esign * (natOfDigits (l5.takeWhile isNumber) : Int))
    else 1
  sign * (ip + fr) * ex

/-- The non-negative core of `fmt4`: round to four fraction digits and
print them zero-padded. -/
def fmt4core (q : ℚ) : String :=
  let m : Int := round (q * 10000)
  let ip := m.tdiv 10000
  let fp := (m.tmod 10000).toNat
  let fds := natToDigits fp
  intRepr ip ++ "." ++ String.mk (List.replicate (4 - fds.length) '0' ++ fds)

/-- Model of `printf("%.4lf", q)` for the serializer's fractional-number
case. -/
def fmt4 (q : ℚ) : String :=
  if q < 0 then "-" ++ fmt4core (-q) else fmt4core q

/-! ## The value model (`rcc_json_object.h`) -/

/-- `json_value` of `rcc_json_object.h`: the tagged union.  Constructors
correspond to the `json_type` tags.  `member` carries the `Child` pointer
(a member list, `[]` for null); `array` carries the initialised contents of
the allocated element buffer (`Head`) together with the stored `Size`
field. -/
inductive json_value where
  | invalid
  | member (Child : List (String × json_value))
  | array (Head : List json_value) (Size : Nat)
  | str (S : String)
  | number (Num : ℚ)
  | boolean (B : Bool)
  | null

/-- A `json_member` node of `rcc_json_object.h`: its owned `Key` and its
`Value`.  The `Next` chain is represented by the enclosing list. -/
abbrev json_member := String × json_value

/-- `json_object` of `rcc_json_object.h`: optional first member and
validity flag; the default constructor gives an empty, valid object. -/
structure json_object where
  First : List json_member := []
  IsValid : Bool := true

/-! ## The tokenizer (`rcc_json_parser.cpp`) -/

/-- `InputJsonBuffer[i]`: reads past the end of the buffer list yield the
NUL byte (see the modelling conventions above). -/
def readChar (buf : List Char) (i : Nat) : Char := buf.getD i '\x00'

theorem readChar_past_end {buf : List Char} {i : Nat} (h : buf.length ≤ i) :
    readChar buf i = '\x00' := by
  simp only [readChar, List.getD]
  rw [List.get?_eq_none.mpr h]
  rfl

/-- The loop of the tokenizer's leading-whitespace skip, with fuel for
structural recursion.  The wrapper `wsSkipIdx` supplies
`buf.length + 1 - i` fuel; the loop can only exhaust it at an index past
the buffer, where `readChar` is the NUL byte and the real loop would stop
anyway. -/
def wsSkipGo (buf : List Char) : Nat → Nat → Nat
  | 0, i => i
  | f + 1, i => if isWhiteSpace (readChar buf i) then wsSkipGo buf f (i + 1) else i

/-- The tokenizer's leading-whitespace skip: advance while `isWhiteSpace`. -/
def wsSkipIdx (buf : List Char) (i : Nat) : Nat :=
  wsSkipGo buf (buf.length + 1 - i) i

/-- The loop of the string-token scan, with fuel (cf. `wsSkipGo`). -/
def strEndGo (buf : List Char) : Nat → Nat → Nat
  | 0, i => i
  | f + 1, i =>
    if readChar buf i = '"' ∨ readChar buf i = '\x00' then i else strEndGo buf f (i + 1)

/-- The string-token scan: the first index at or after `i` holding `"` or
the NUL byte. -/
def strEnd (buf : List Char) (i : Nat) : Nat :=
  strEndGo buf (buf.length + 1 - i) i

/-- The loop of the number-token scan, with fuel (cf. `wsSkipGo`). -/
def numEndGo (buf : List Char) : Nat → Nat → Nat
  | 0, i => i
  | f + 1, i =>
    if isNumber (readChar buf i) ∨ readChar buf i = '.' ∨ readChar buf i = 'e' ∨
        readChar buf i = '-' then
      numEndGo buf f (i + 1)
    else i

/-- The number-token scan: advance over digits, `.`, `e` and `-`. -/
def numEnd (buf : List Char) (i : Nat) : Nat :=
  numEndGo buf (buf.length + 1 - i) i

/-- The byte-by-byte copy `strncpy(·, &buf[a], b - a)` of the token text. -/
def subStr (buf : List Char) (a b : Nat) : String :=
  String.mk ((List.range (b - a)).map fun k => readChar buf (a + k))

/-- `strncmp(&buf[i], lit, lit.length) == 0` for a literal without NUL
bytes. -/
def matchLit (buf : List Char) (i : Nat) : List Char → Bool
  | [] => true
  | c :: cs => readChar buf i = c && matchLit buf (i + 1) cs

/-- The token kinds of `rcc_json_parser.h` (`json_token_type`). -/
inductive json_token_type where
  | INVALID
  | OBJECT_START
  | OBJECT_END
  | ARRAY_START
  | ARRAY_END
  | COMMA
  | COLON
  | STRING
  | NUMBER
  | BOOLEAN
  | NULL
deriving DecidableEq, Repr

/-- `json_token` of `rcc_json_parser.h`.  The C fields are named `Type` and
`String`; both words are reserved in Lean, so they appear as `Ty` and
`Str`.  The default constructor zero-initialises to an `INVALID` token
with empty text. -/
structure json_token where
  Ty : json_token_type := .INVALID
  Str : String := ""
deriving DecidableEq, Repr

/-- `tokenizeString` of `rcc_json_parser.cpp`: skip whitespace, produce the
next token, return it with the advanced cursor.  `none` models the
undefined behaviour of `strncpy` overflowing the 64-byte token text. -/
def tokenizeString (buf : List Char) (i0 : Nat) : Option (json_token × Nat) :=
  let i := wsSkipIdx buf i0
  let c := readChar buf i
  if c = '{' then some ({ Ty := .OBJECT_START }, i + 1)
  else if c = '}' then some ({ Ty := .OBJECT_END }, i + 1)
  else if c = '[' then some ({ Ty := .ARRAY_START }, i + 1)
  else if c = ']' then some ({ Ty := .ARRAY_END }, i + 1)
  else if c = ',' then some ({ Ty := .COMMA }, i + 1)
  else if c = ':' then some ({ Ty := .COLON }, i + 1)
  else if c = '"' then
    let s := i + 1
    let j := strEnd buf s
    if readChar buf j = '\x00' then some ({ Ty := .INVALID }, j)
    else if j - s < 64 then some ({ Ty := .STRING, Str := subStr buf s j }, j + 1)
    else none
  else if isNumber c ∨ c = '-' then
    let s := i
    let j := numEnd buf (i + 1)
    if readChar buf j = '\x00' then some ({ Ty := .INVALID }, j)
    else if j - s < 64 then some ({ Ty := .NUMBER, Str := subStr buf s j }, j)
    else none
  else if c = 't' then
    if matchLit buf i "true".toList then some ({ Ty := .BOOLEAN, Str := "true" }, i + 4)
    else some ({ Ty := .INVALID }, i)
  else if c = 'f' then
    if matchLit buf i "false".toList then some ({ Ty := .BOOLEAN, Str := "false" }, i + 5)
    else some ({ Ty := .INVALID }, i)
  else if c = 'n' then
    if matchLit buf i "null".toList then some ({ Ty := .NULL, Str := "null" }, i + 4)
    else some ({ Ty := .INVALID }, i)
  else some ({ Ty := .INVALID }, i)

/-- `strncmp(s, "true", 4) == 0`, the parser's boolean-value test. -/
def isTrueLit (s : String) : Bool := s.toList.take 4 = "true".toList

/-! ## The mutation API (`rcc_json_object.cpp`)

Each `addJsonMember` overload takes the key as `Option String`: `none`
models a null `const char*`.  The guard in the C code reads
`if (Key == '\0')`, which compares the **pointer** against null — an empty
string is a non-null pointer and passes the guard. -/

/-- The tail-append loop shared by all `addJsonMember` overloads: if the
object has no members the new member becomes `First`, otherwise walk the
`Next` chain to the last member and attach. -/
def appendJsonMember (First : List json_member) (NewMember : json_member) :
    List json_member :=
  match First with
  | [] => [NewMember]
  | m :: rest => m :: appendJsonMember rest NewMember

/-- `addJsonMember(json_object*, const char* Key, const char* String)`. -/
def addJsonMemberString (JsonObject : json_object) (Key : Option String)
    (S : String) : json_object :=
  match Key with
  | none => JsonObject
  | some k => { JsonObject with First := appendJsonMember JsonObject.First (k, .str S) }

/-- `addJsonMember(json_object*, const char* Key, float64_t Number)`. -/
def addJsonMemberNumber (JsonObject : json_object) (Key : Option String)
    (Number : ℚ) : json_object :=
  match Key with
  | none => JsonObject
  | some k => { JsonObject with First := appendJsonMember JsonObject.First (k, .number Number) }

/-- `addJsonMember(json_object*, const char* Key, bool32_t Boolean)`. -/
def addJsonMemberBoolean (JsonObject : json_object) (Key : Option String)
    (Boolean : Bool) : json_object :=
  match Key with
  | none => JsonObject
  | some k => { JsonObject with First := appendJsonMember JsonObject.First (k, .boolean Boolean) }

/-- `addJsonMember(json_object*, const char* Key, json_member* Child)`:
also rejects a null child pointer. -/
def addJsonMemberChild (JsonObject : json_object) (Key : Option String)
    (Child : List json_member) : json_object :=
  match Key, Child with
  | none, _ => JsonObject
  | some _, [] => JsonObject
  | some k, c => { JsonObject with First := appendJsonMember JsonObject.First (k, .member c) }

/-- `addJsonMember(json_object*, const char* Key, json_object* Child)`:
rejects a child object with no members, else inserts `Child->First`. -/
def addJsonMemberObject (JsonObject : json_object) (Key : Option String)
    (Child : json_object) : json_object :=
  match Key, Child.First with
  | none, _ => JsonObject
  | some _, [] => JsonObject
  | some k, c => { JsonObject with First := appendJsonMember JsonObject.First (k, .member c) }

/-- `addJsonMember(json_object*, const char* Key, json_value* ArrayHead,
size_t ArraySize)`: `setJsonMemberValue` allocates a fresh buffer of
`ArraySize` values and `memcpy`s that many elements from `ArrayHead`, so
the initialised contents of the stored buffer are `ArrayHead.take
ArraySize`.  `none` for `ArrayHead` models a null source pointer. -/
def addJsonMemberArray (JsonObject : json_object) (Key : Option String)
    (ArrayHead : Option (List json_value)) (ArraySize : Nat) : json_object :=
  match Key, ArrayHead with
  | none, _ => JsonObject
  | some _, none => JsonObject
  | some k, some vs =>
    { JsonObject with
      First := appendJsonMember JsonObject.First (k, .array (vs.take ArraySize) ArraySize) }

/-- `addJsonMemberNull(json_object*, const char* Key)`. -/
def addJsonMemberNull (JsonObject : json_object) (Key : Option String) :
    json_object :=
  match Key with
  | none => JsonObject
  | some k => { JsonObject with First := appendJsonMember JsonObject.First (k, .null) }

/-! ## The query API (`rcc_json_object.cpp`) -/

/-- `getJsonValue(json_member*, const char* Key)`: walk the member list;
on a key match return that value; if a member's value is `JSON_TYPE_MEMBER`
search its child list and keep that result unless it came back
`JSON_TYPE_INVALID`; otherwise continue with the next sibling. -/
def getJsonValueM : List json_member → String → json_value
  | [], _ => .invalid
  | (k, v) :: rest, Key =>
    if k = Key then v
    else match v with
      | .member Child =>
        match getJsonValueM Child Key with
        | .invalid => getJsonValueM rest Key
        | r => r
      | _ => getJsonValueM rest Key

/-- `getJsonValue(json_object, const char* Key)`: invalid if `First` is
null, else search the member list. -/
def getJsonValue (JsonObject : json_object) (Key : String) : json_value :=
  getJsonValueM JsonObject.First Key

/-- `getJsonValueArraySize`: the stored `Size` for an array, `-1` (with a
logged error) for any other kind. -/
def getJsonValueArraySize (JsonValue : json_value) : Int :=
  match JsonValue with
  | .array _ Size => (Size : Int)
  | _ => -1

/-- `getJsonValueArrayMember(json_value, int32_t Index)`: for an array the
code evaluates `*(JsonValue.Array.Head[Index].Child)` — it reads the
element at `Index` and dereferences its `Child` union field.  `none`
models: a non-array argument (the error path returns a default-constructed
`json_member` with a null key), an out-of-bounds or uninitialised element
read, an element whose active union field is not `Child` (the pointer
obtained by reinterpreting the union is garbage), and a null `Child`.
Dereferencing `Child` yields the member node together with its `Next`
chain, i.e. the child list itself. -/
def getJsonValueArrayMember (JsonValue : json_value) (Index : Nat) :
    Option (List json_member) :=
  match JsonValue with
  | .array Head _ =>
    match Head.get? Index with
    | some (.member Child) =>
      match Child with
      | [] => none
      | c => some c
    | _ => none
  | _ => none

/-! ## Destruction (`rcc_json_object.cpp`) -/

/-- A heap deallocation performed by the destroy/delete code: `free` of a
`char*` key allocation, or `free` of a `json_member` node. -/
inductive free_event where
  | keyStr (s : String)
  | memberNode (m : json_member)

mutual

/-- `destroyJsonMember(json_member*)`: the function reads
`TargetMember->Next` **before** the loop's null test, so a null argument
crashes (`none`).  Otherwise it walks the sibling chain; for each node it
first recursively destroys a `JSON_TYPE_MEMBER` child list, then frees the
key allocation and the node itself.  The result is the trace of `free`
calls in order. -/
def destroyJsonMember : List json_member → Option (List free_event)
  | [] => none
  | l => destroyLoop l

/-- The sibling-walking loop body of `destroyJsonMember`. -/
def destroyLoop : List json_member → Option (List free_event)
  | [] => some []
  | (k, v) :: rest =>
    match v with
    | .member Child => do
      let tr ← destroyJsonMember Child
      let tr2 ← destroyLoop rest
      pure (tr ++ [.keyStr k, .memberNode (k, v)] ++ tr2)
    | _ => do
      let tr2 ← destroyLoop rest
      pure (.keyStr k :: .memberNode (k, v) :: tr2)

end

/-- `destroyJsonObject(json_object*)`: null object pointers are rejected,
but `JsonObject->First` is passed to `destroyJsonMember` without a null
check; afterwards `First` is reset.  (The object itself is passed by
address from a stack variable, never null in the repository, so the model
takes it by value.) -/
def destroyJsonObject (JsonObject : json_object) :
    Option (List free_event × json_object) :=
  (destroyJsonMember JsonObject.First).map fun tr => (tr, { JsonObject with First := [] })

/-! ## Deletion (`rcc_json_object.cpp`) -/

mutual

/-- `deleteJsonMember(json_member*, const char* Key)`: dereferences
`TargetMember->Next` immediately, so a null argument crashes (`none`);
otherwise runs the scanning loop. -/
def deleteJsonMemberM : List json_member → String → Option (Bool × List json_member × List free_event)
  | [], _ => none
  | m :: rest, Key => deleteScan Key m rest
termination_by l _ => sizeOf l
decreasing_by all_goals simp_wf <;> omega

/-- The scanning loop of `deleteJsonMember(json_member*, ·)`: looks at
`TargetMember->Next`.  On a key match it unlinks the node and calls
`destroyJsonMember` on it — whose sibling walk also frees the entire
remainder of the chain (the unlinked node's `Next` still points there),
though the surviving structure keeps those (now dangling) nodes.  If the
next member holds a `JSON_TYPE_MEMBER` child, the child list is searched
recursively (which never examines the child list's own head key); if
nothing matched, advance. -/
def deleteScan (Key : String) : json_member → List json_member →
    Option (Bool × List json_member × List free_event)
  | m, [] => some (false, [m], [])
  | m, (k, v) :: rest =>
    if k = Key then do
      let tr ← destroyJsonMember ((k, v) :: rest)
      pure (true, m :: rest, tr)
    else
      match v with
      | .member Child => do
        let (found, Child2, tr) ← deleteJsonMemberM Child Key
        if found then
          pure (true, m :: (k, .member Child2) :: rest, tr)
        else do
          -- a `false` return performs no writes and no frees, so the loop
          -- continues over the unchanged node
          let (f, l2, tr2) ← deleteScan Key (k, .member Child) rest
          pure (f, m :: l2, tr ++ tr2)
      | w => do
        let (f, l2, tr2) ← deleteScan Key (k, w) rest
        pure (f, m :: l2, tr2)
termination_by m l => sizeOf m + sizeOf l
decreasing_by all_goals simp_wf <;> omega

end

/-- `deleteJsonMember(json_object&, const char* Key)`: an empty object
logs a warning and returns **true**; a head-key match re-points `First`
and destroys the unlinked head (whose `Next` chain — the entire rest of
the list — is also freed by `destroyJsonMember`'s sibling walk); otherwise
the scanning loop runs from the head. -/
def deleteJsonMemberObj (JsonObject : json_object) (Key : String) :
    Option (Bool × json_object × List free_event) :=
  match JsonObject.First with
  | [] => some (true, JsonObject, [])
  | m :: rest =>
    if m.1 = Key then do
      let tr ← destroyJsonMember (m :: rest)
      pure (true, { JsonObject with First := rest }, tr)
    else do
      let (f, l2, tr) ← deleteJsonMemberM (m :: rest) Key
      pure (f, { JsonObject with First := l2 }, tr)

/-! ## The serializer (`rcc_json_object.cpp`)

`printJsonValue` / `printJsonMember` / `printJsonObject` write to stdout;
they are modelled as returning the printed text.  `none` models the crash
of dereferencing a null `Child` pointer or reading an uninitialised array
slot (`Index < Size` but past the initialised contents). -/

mutual

/-- `printJsonValue`: dispatch on the value kind.  The `JSON_TYPE_MEMBER`
case dereferences `Child` (crash when null); the array case prints the
first `Size` elements separated by `", "`; an invalid kind logs an error
and prints nothing. -/
def printJsonValue : json_value → Option String
  | .member Child =>
    match Child with
    | [] => none
    | c => printJsonMember c
  | .array Head Size => do
    let ss ← printArraySlots Head Size
    pure ("[" ++ ss ++ "]")
  | .str S => some ("\"" ++ S ++ "\"")
  | .number Num =>
    some (if isFractionalPartZero Num then intRepr (truncQ Num) else fmt4 Num)
  | .boolean B => some (if B then "true" else "false")
  | .null => some "null"
  | .invalid => some ""

/-- The array-printing loop: `Size` iterations reading `Head[Index]`,
with `", "` after every element except the last; running past the
initialised contents reads uninitialised memory (`none`). -/
def printArraySlots : List json_value → Nat → Option String
  | _, 0 => some ""
  | [], _ + 1 => none
  | v :: _, 1 => printJsonValue v
  | v :: rest, k + 2 => do
    let s ← printJsonValue v
    let ss ← printArraySlots rest (k + 1)
    pure (s ++ ", " ++ ss)

/-- `printJsonMember`: braces around the `"key" : value` pairs of the
`Next` chain.  The argument is the dereferenced head node, so the list is
non-empty at every real call site. -/
def printJsonMember (l : List json_member) : Option String := do
  let ss ← printMemberChain l
  pure ("\x7b" ++ ss ++ "\x7d")

/-- The pair-printing loop of `printJsonMember`: print the pair, then
`", "` whenever a `Next` node exists. -/
def printMemberChain : List json_member → Option String
  | [] => some ""
  | [(k, v)] => do
    let s ← printJsonValue v
    pure ("\"" ++ k ++ "\" : " ++ s)
  | (k, v) :: m :: rest => do
    let s ← printJsonValue v
    let ss ← printMemberChain (m :: rest)
    pure ("\"" ++ k ++ "\" : " ++ s ++ ", " ++ ss)

end

/-- `printJsonObject`: logs (prints nothing) for an empty or invalid
object, else prints the member list followed by a newline. -/
def printJsonObject (Object : json_object) : Option String :=
  match Object.First with
  | [] => some ""
  | l => if Object.IsValid then (printJsonMember l).map (· ++ "\n") else some ""

/-! ## The parser (`rcc_json_parser.cpp`) -/

mutual

/-- `parseStringToJson(InputJsonBuffer, InputJsonFileSize, BufferIndex)`:
construct a default (valid, empty) result and run the outer token loop.
The first argument is fuel (see the modelling conventions). -/
def parseStringToJson : Nat → List Char → Nat → Nat → Option (json_object × Nat)
  | 0, _, _, _ => none
  | fuel + 1, buf, size, i => parseOuter fuel buf size {} i

/-- The outer `while (BufferIndex < InputJsonFileSize)` loop: an invalid
token breaks out (returning the result built so far); an `{` enters the
member loop, whose only exits are `return` statements; any other token is
skipped. -/
def parseOuter : Nat → List Char → Nat → json_object → Nat → Option (json_object × Nat)
  | 0, _, _, _, _ => none
  | fuel + 1, buf, size, res, i =>
    if i < size then
      match tokenizeString buf i with
      | none => none
      | some (tok, i1) =>
        if tok.Ty = .INVALID then some (res, i1)
        else if tok.Ty = .OBJECT_START then parseMembers fuel buf size res i1
        else parseOuter fuel buf size res i1
    else some (res, i)

/-- One iteration of the member loop: parse a key (must be a string), a
colon, then dispatch on the value token; a violation returns immediately
with `IsValid = false`.  A nested `{` rewinds one byte and recurses — the
child's own validity flag is discarded.  After a member, a non-comma token
ends the whole call (`parseComma`). -/
def parseMembers : Nat → List Char → Nat → json_object → Nat → Option (json_object × Nat)
  | 0, _, _, _, _ => none
  | fuel + 1, buf, size, res, i =>
    match tokenizeString buf i with
    | none => none
    | some (keyTok, i1) =>
      if keyTok.Ty ≠ .STRING then some ({ res with IsValid := false }, i1)
      else
        match tokenizeString buf i1 with
        | none => none
        | some (colonTok, i2) =>
          if colonTok.Ty ≠ .COLON then some ({ res with IsValid := false }, i2)
          else
            match tokenizeString buf i2 with
            | none => none
            | some (valTok, i3) => parseValue fuel buf size res keyTok.Str valTok i3

/-- The `// parsing value` switch of the member loop, dispatching on the
value token's kind (split out of `parseMembers` as its own function; the
C code is one switch statement inside the loop). -/
def parseValue : Nat → List Char → Nat → json_object → String → json_token → Nat →
    Option (json_object × Nat)
  | 0, _, _, _, _, _, _ => none
  | fuel + 1, buf, size, res, key, valTok, i3 =>
    match valTok.Ty with
    | .OBJECT_START =>
      match parseStringToJson fuel buf size (i3 - 1) with
      | none => none
      | some (child, i4) =>
        parseComma fuel buf size (addJsonMemberObject res (some key) child) i4
    | .ARRAY_START =>
      match arrayPass1 fuel buf size i3 0 with
      | none => none
      | some (.inl ibad) => some ({ res with IsValid := false }, ibad)
      | some (.inr (n, _)) =>
        match arrayPass2 fuel buf size i3 with
        | none => none
        | some (.inl ibad) => some ({ res with IsValid := false }, ibad)
        | some (.inr (vals, i5)) =>
          parseComma fuel buf size (addJsonMemberArray res (some key) (some vals) n) i5
    | .STRING => parseComma fuel buf size (addJsonMemberString res (some key) valTok.Str) i3
    | .NUMBER =>
      parseComma fuel buf size (addJsonMemberNumber res (some key) (atofQ valTok.Str)) i3
    | .BOOLEAN =>
      parseComma fuel buf size (addJsonMemberBoolean res (some key) (isTrueLit valTok.Str)) i3
    | .NULL => parseComma fuel buf size (addJsonMemberNull res (some key)) i3
    | _ => some ({ res with IsValid := false }, i3)

/-- The `// skip the comma` step: a comma continues the member loop, any
other token makes the function return the object built so far (this is
how a closing `}` is consumed). -/
def parseComma : Nat → List Char → Nat → json_object → Nat → Option (json_object × Nat)
  | 0, _, _, _, _ => none
  | fuel + 1, buf, size, res, i =>
    match tokenizeString buf i with
    | none => none
    | some (c, i1) =>
      if c.Ty = .COMMA then parseMembers fuel buf size res i1 else some (res, i1)

/-- Array pass 1: count elements up to `]`; a nested `{` rewinds one byte,
parses (and discards) a nested object; commas are skipped; any other token
aborts with `IsValid = false` (`.inl` carries the cursor of that early
return). -/
def arrayPass1 : Nat → List Char → Nat → Nat → Nat → Option (Sum Nat (Nat × Nat))
  | 0, _, _, _, _ => none
  | fuel + 1, buf, size, i, n =>
    match tokenizeString buf i with
    | none => none
    | some (tok, i1) =>
      match tok.Ty with
      | .ARRAY_END => some (.inr (n, i1))
      | .OBJECT_START =>
        match parseStringToJson fuel buf size (i1 - 1) with
        | none => none
        | some (_, i2) => arrayPass1 fuel buf size i2 (n + 1)
      | .NUMBER => arrayPass1 fuel buf size i1 (n + 1)
      | .BOOLEAN => arrayPass1 fuel buf size i1 (n + 1)
      | .NULL => arrayPass1 fuel buf size i1 (n + 1)
      | .STRING => arrayPass1 fuel buf size i1 (n + 1)
      | .COMMA => arrayPass1 fuel buf size i1 n
      | _ => some (.inl i1)

/-- Array pass 2: rescan from the restored cursor, materialising each
element in write order; a nested object element stores `TempObject.First`
as a `JSON_TYPE_MEMBER` value (even when null). -/
def arrayPass2 : Nat → List Char → Nat → Nat → Option (Sum Nat (List json_value × Nat))
  | 0, _, _, _ => none
  | fuel + 1, buf, size, i =>
    match tokenizeString buf i with
    | none => none
    | some (tok, i1) =>
      match tok.Ty with
      | .ARRAY_END => some (.inr ([], i1))
      | .OBJECT_START =>
        match parseStringToJson fuel buf size (i1 - 1) with
        | none => none
        | some (child, i2) =>
          match arrayPass2 fuel buf size i2 with
          | none => none
          | some (.inl ibad) => some (.inl ibad)
          | some (.inr (vs, iE)) => some (.inr (.member child.First :: vs, iE))
      | .NUMBER =>
        match arrayPass2 fuel buf size i1 with
        | none => none
        | some (.inl ibad) => some (.inl ibad)
        | some (.inr (vs, iE)) => some (.inr (.number (atofQ tok.Str) :: vs, iE))
      | .BOOLEAN =>
        match arrayPass2 fuel buf size i1 with
        | none => none
        | some (.inl ibad) => some (.inl ibad)
        | some (.inr (vs, iE)) => some (.inr (.boolean (isTrueLit tok.Str) :: vs, iE))
      | .NULL =>
        match arrayPass2 fuel buf size i1 with
        | none => none
        | some (.inl ibad) => some (.inl ibad)
        | some (.inr (vs, iE)) => some (.inr (.null :: vs, iE))
      | .STRING =>
        match arrayPass2 fuel buf size i1 with
        | none => none
        | some (.inl ibad) => some (.inl ibad)
        | some (.inr (vs, iE)) => some (.inr (.str tok.Str :: vs, iE))
      | .COMMA => arrayPass2 fuel buf size i1
      | _ => some (.inl i1)

end

/-! ## Specification-side definitions

Independent formulations of search orders, reachability and
well-formedness used to state the claims. -/

/-- The depth-first enumeration of the `(key, value)` pairs of a member
tree in lookup-precedence order: a member's own pair, then (for a
`MemberRef` value) the pairs of its child list, then the next sibling. -/
def dfsPairs : List json_member → List (String × json_value)
  | [] => []
  | (k, v) :: rest =>
    (k, v) :: ((match v with | .member c => dfsPairs c | _ => []) ++ dfsPairs rest)

/-- First-match lookup over the depth-first enumeration: the value of the
first pair whose key matches, `invalid` if none. -/
def lookupFirst (l : List json_member) (Key : String) : json_value :=
  match (dfsPairs l).find? (fun p => p.1 == Key) with
  | some p => p.2
  | none => .invalid

/-- No member stored in the sibling/child tree carries an
`JSON_TYPE_INVALID` value (every constructed member is made through the
insert operations, none of which stores an invalid value). -/
def wfNoInvalid : List json_member → Bool
  | [] => true
  | (_, v) :: rest =>
    (match v with
     | .invalid => false
     | .member c => wfNoInvalid c
     | _ => true) && wfNoInvalid rest

/-- Every `MemberRef` value in the sibling/child tree has a non-null child
list (the insert operations reject null children). -/
def wfChildren : List json_member → Bool
  | [] => true
  | (_, v) :: rest =>
    (match v with
     | .member c => !c.isEmpty && wfChildren c
     | _ => true) && wfChildren rest

/-- The member nodes reachable through sibling links and `MemberRef`
ownership edges, in DFS order (self first). -/
def membersSC : List json_member → List json_member
  | [] => []
  | (k, v) :: rest =>
    (k, v) :: ((match v with | .member c => membersSC c | _ => []) ++ membersSC rest)

mutual

/-- All member nodes reachable through sibling links, `MemberRef` edges
**and** array-element edges — the reachability notion used by the claim
about `destroy`. -/
def membersAll : List json_member → List json_member
  | [] => []
  | (k, v) :: rest => (k, v) :: (valueMembersAll v ++ membersAll rest)

/-- Member nodes reachable from a value (through `MemberRef` or array
elements). -/
def valueMembersAll : json_value → List json_member
  | .member c => membersAll c
  | .array vs _ => elemsMembersAll vs
  | _ => []

/-- Member nodes reachable from a list of array elements. -/
def elemsMembersAll : List json_value → List json_member
  | [] => []
  | v :: vs => valueMembersAll v ++ elemsMembersAll vs

end

/-- The member nodes freed in a trace, in order. -/
def traceMemberNodes : List free_event → List json_member
  | [] => []
  | .memberNode m :: tr => m :: traceMemberNodes tr
  | .keyStr _ :: tr => traceMemberNodes tr

/-- Whether a trace frees a `char*` allocation holding the text `s`. -/
def traceFreesKey (tr : List free_event) (s : String) : Bool :=
  tr.any fun e => match e with | .keyStr t => t == s | _ => false

mutual

/-- The keys examined by the scanning loop of
`deleteJsonMember(json_member*, ·)` over the successor positions of a
list, in search order. -/
def scanKeys : List json_member → List String
  | [] => []
  | (k, v) :: rest =>
    k :: ((match v with | .member c => tailScanKeys c | _ => []) ++ scanKeys rest)

/-- The keys examined by a recursive `deleteJsonMember(json_member*, ·)`
call on a child list: its head's key is *not* examined, only the
successors'. -/
def tailScanKeys : List json_member → List String
  | [] => []
  | _ :: rest => scanKeys rest

end

/-! ## Claim C2 — unterminated object -/

/-- C2: parsing the 7-byte input `{"a":1,` (no closing brace, input
exhausted after the trailing comma) returns an object whose validity flag
is false (the member loop continues past the comma, the next key
tokenizes as `INVALID`, and the key check fails fatally).  The member
built before the failure remains attached. -/
theorem c2_unterminated_object_invalid :
    parseStringToJson 20 ("\x7b\"a\":1,".toList) 7 0 =
      some ({ First := [("a", .number 1)], IsValid := false }, 7) := by
  simp +decide [parseStringToJson, parseOuter, parseMembers, parseValue, parseComma, tokenizeString,
    wsSkipIdx, wsSkipGo, strEnd, strEndGo, numEnd, numEndGo, readChar, subStr, matchLit,
    isWhiteSpace, isNumber, addJsonMemberNumber, appendJsonMember, atofQ, natOfDigits, digitVal]

/-! ## Claim C1 — array element access -/

/-- C1: after parsing `{"pairs":[1,2,3]}` the stored array has size 3 and
its element at index 1 is the `Number 2`; but `getJsonValueArrayMember`
evaluates `*(JsonValue.Array.Head[Index].Child)` — it unconditionally
dereferences the element's `Child` union field, so for the number element
it reinterprets the `double` as a pointer (undefined behaviour, `none` in
the model) instead of returning the element value. -/
theorem c1_arrayElementAt_derefs_child :
    parseStringToJson 50 ("\x7b\"pairs\":[1,2,3]\x7d".toList) 17 0 =
      some ({ First := [("pairs", .array [.number 1, .number 2, .number 3] 3)],
              IsValid := true }, 17) ∧
    getJsonValue { First := [("pairs", .array [.number 1, .number 2, .number 3] 3)],
                   IsValid := true } "pairs" =
      .array [.number 1, .number 2, .number 3] 3 ∧
    getJsonValueArraySize (.array [.number 1, .number 2, .number 3] 3) = 3 ∧
    [json_value.number 1, .number 2, .number 3].get? 1 = some (.number 2) ∧
    getJsonValueArrayMember (.array [.number 1, .number 2, .number 3] 3) 1 = none := by
  refine ⟨?_, ?_, ?_, ?_, ?_⟩
  · simp +decide [parseStringToJson, parseOuter, parseMembers, parseValue, parseComma, arrayPass1,
      arrayPass2, tokenizeString, wsSkipIdx, wsSkipGo, strEnd, strEndGo, numEnd, numEndGo,
      readChar, subStr, matchLit, isWhiteSpace, isNumber, addJsonMemberArray,
      appendJsonMember, atofQ, natOfDigits, digitVal]
  · simp [getJsonValue, getJsonValueM]
  · rfl
  · rfl
  · rfl

/-! ## Claim C5 — empty insertion key -/

/-- C5: the guard of every insert operation reads `if (Key == '\0')`,
which compares the key **pointer** against null; an empty string is a
non-null pointer, so `insertString(obj, "", "x")` (and likewise
`addJsonMemberNull`) appends a member with an empty key instead of
failing with InvalidKey and leaving the object unchanged. -/
theorem c5_empty_key_is_inserted :
    addJsonMemberString {} (some "") "x" =
      { First := [("", .str "x")], IsValid := true } ∧
    addJsonMemberNull {} (some "") = { First := [("", .null)], IsValid := true } ∧
    addJsonMemberNumber {} (some "") 1 = { First := [("", .number 1)], IsValid := true } ∧
    addJsonMemberString {} none "x" = {} := by
  exact ⟨rfl, rfl, rfl, rfl⟩

/-! ## Claim C10 — destroying an empty object -/

/-- C10: `destroyJsonMember` reads `TargetMember->Next` before its null
check, so `destroyJsonObject` on an object whose `First` pointer is null
passes that null pointer down and crashes (`none`): destroying requires a
non-empty member list. -/
theorem c10_destroy_empty_object_crashes (obj : json_object) (h : obj.First = []) :
    destroyJsonObject obj = none := by
  simp [destroyJsonObject, h, destroyJsonMember]

/-- Witness for C10 at the concrete empty object. -/
theorem c10_destroy_empty_object_crashes_witness :
    destroyJsonObject {} = none :=
  c10_destroy_empty_object_crashes {} rfl

/-! ## Claim C8 — buffer reads past the declared length -/

/-- The buffer indices read by one `wsSkipGo` loop (each condition check
reads `buf[i]`). -/
def wsSkipReadsGo (buf : List Char) : Nat → Nat → List Nat
  | 0, _ => []
  | f + 1, i =>
    i :: (if isWhiteSpace (readChar buf i) then wsSkipReadsGo buf f (i + 1) else [])

/-- The buffer indices read by the string-token scan. -/
def strEndReadsGo (buf : List Char) : Nat → Nat → List Nat
  | 0, _ => []
  | f + 1, i =>
    i :: (if readChar buf i = '"' ∨ readChar buf i = '\x00' then []
          else strEndReadsGo buf f (i + 1))

/-- The buffer indices read by the number-token scan. -/
def numEndReadsGo (buf : List Char) : Nat → Nat → List Nat
  | 0, _ => []
  | f + 1, i =>
    if isNumber (readChar buf i) ∨ readChar buf i = '.' ∨ readChar buf i = 'e' ∨
        readChar buf i = '-' then
      i :: numEndReadsGo buf f (i + 1)
    else [i]

/-- The buffer indices `tokenizeString` reads: the whitespace checks, the
dispatch read, and the scan/literal reads of the chosen case.
Instrumented shadow of `tokenizeString` (same control flow, collecting
each `InputJsonBuffer[·]` access). -/
def tokenizeStringReads (buf : List Char) (i0 : Nat) : List Nat :=
  let i := wsSkipIdx buf i0
  let c := readChar buf i
  wsSkipReadsGo buf (buf.length + 1 - i0) i0 ++ [i] ++
    (if c = '{' ∨ c = '}' ∨ c = '[' ∨ c = ']' ∨ c = ',' ∨ c = ':' then []
     else if c = '"' then strEndReadsGo buf (buf.length + 1 - (i + 1)) (i + 1)
     else if isNumber c ∨ c = '-' then numEndReadsGo buf (buf.length + 1 - (i + 1)) (i + 1)
     else if c = 't' ∨ c = 'n' then [i, i + 1, i + 2, i + 3]
     else if c = 'f' then [i, i + 1, i + 2, i + 3, i + 4]
     else [])

/-- C8: tokenizing is *not* bounded by the declared length:
`tokenizeString` takes no length parameter at all and scans until a NUL
byte.  On the 3-byte buffer `"ab` (an unterminated string token) it reads
index 3, at the declared length, and only an in-band NUL (here: the byte
past the end) stops it. -/
theorem c8_tokenizer_reads_past_length :
    ("\"ab".toList).length = 3 ∧
    3 ∈ tokenizeStringReads ("\"ab".toList) 0 ∧
    tokenizeString ("\"ab".toList) 0 = some ({ Ty := .INVALID }, 3) := by
  refine ⟨rfl, ?_, ?_⟩ <;> decide

/-! ## Claim C9 — string tokens: unterminated and verbatim copy -/

theorem lt_length_of_readChar_ne (buf : List Char) (i : Nat)
    (h : readChar buf i ≠ '\x00') : i < buf.length := by
  by_contra hc
  exact h (readChar_past_end (by omega))

theorem wsSkipIdx_eq_self (buf : List Char) (i : Nat)
    (h : isWhiteSpace (readChar buf i) = false) : wsSkipIdx buf i = i := by
  unfold wsSkipIdx
  cases hf : buf.length + 1 - i with
  | zero => rfl
  | succ f => unfold wsSkipGo; rw [h]; simp

theorem strEndGo_spec (buf : List Char) :
    ∀ (f i j : Nat), i ≤ j → j ≤ i + f →
    (∀ k, i ≤ k → k < j → readChar buf k ≠ '"' ∧ readChar buf k ≠ '\x00') →
    (readChar buf j = '"' ∨ readChar buf j = '\x00') →
    strEndGo buf f i = j := by
  intro f
  induction f with
  | zero =>
    intro i j h1 h2 _ _
    have h3 : j = i := by omega
    subst h3
    rfl
  | succ f ih =>
    intro i j h1 h2 hmid hstop
    by_cases hij : i = j
    · subst hij
      unfold strEndGo
      rw [if_pos hstop]
    · have hlt : i < j := by omega
      have hmi := hmid i le_rfl hlt
      unfold strEndGo
      rw [if_neg (by push_neg; exact hmi)]
      exact ih (i + 1) j (by omega) (by omega) (fun k hk1 hk2 => hmid k (by omega) hk2) hstop

theorem strEnd_spec (buf : List Char) (i j : Nat) (h1 : i ≤ j) (hj : j ≤ buf.length)
    (hmid : ∀ k, i ≤ k → k < j → readChar buf k ≠ '"' ∧ readChar buf k ≠ '\x00')
    (hstop : readChar buf j = '"' ∨ readChar buf j = '\x00') :
    strEnd buf i = j :=
  strEndGo_spec buf (buf.length + 1 - i) i j h1 (by omega) hmid hstop

/-- The two behaviours of the tokenizer's string case (shared helper for
the claim theorem below and for the parser round-trip lemmas). -/
theorem tokenize_string_spec (buf : List Char) (i0 : Nat) (hq : readChar buf i0 = '"') :
    ((∀ k, i0 < k → k < buf.length →
        readChar buf k ≠ '"' ∧ readChar buf k ≠ '\x00') →
      tokenizeString buf i0 = some ({ Ty := .INVALID }, buf.length)) ∧
    (∀ j, i0 < j → readChar buf j = '"' →
      (∀ k, i0 < k → k < j → readChar buf k ≠ '"' ∧ readChar buf k ≠ '\x00') →
      j - (i0 + 1) < 64 →
      tokenizeString buf i0 =
        some ({ Ty := .STRING,
                Str := String.mk ((List.range (j - (i0 + 1))).map
                  fun k => readChar buf (i0 + 1 + k)) }, j + 1)) := by
  have hws : isWhiteSpace (readChar buf i0) = false := by rw [hq]; decide
  have hi0 : i0 < buf.length := lt_length_of_readChar_ne buf i0 (by rw [hq]; decide)
  constructor
  · intro hA
    have hstr : strEnd buf (i0 + 1) = buf.length :=
      strEnd_spec buf (i0 + 1) buf.length (by omega) le_rfl
        (fun k hk1 hk2 => hA k (by omega) hk2)
        (Or.inr (readChar_past_end le_rfl))
    simp only [tokenizeString, wsSkipIdx_eq_self buf i0 hws, hq, hstr,
      readChar_past_end (le_refl buf.length)]
    simp
  · intro j hij hj hmid hcap
    have hjlen : j < buf.length := lt_length_of_readChar_ne buf j (by rw [hj]; decide)
    have hstr : strEnd buf (i0 + 1) = j :=
      strEnd_spec buf (i0 + 1) j (by omega) (by omega)
        (fun k hk1 hk2 => hmid k (by omega) hk2) (Or.inl hj)
    simp only [tokenizeString, wsSkipIdx_eq_self buf i0 hws, hq, hstr, hj]
    simp [hcap, subStr]

/-- C9: if the byte at the cursor opens a string token, then (1) when no
closing quote (and no stray NUL) occurs before the input's end-of-data,
the token comes back `INVALID`; and (2) when a closing quote is reached,
the token text is exactly the raw bytes between the quotes, copied
verbatim with no escape decoding (the capacity hypothesis excludes the
64-byte `strncpy` overflow, which is undefined behaviour). -/
theorem c9_string_tokens (buf : List Char) (i0 : Nat) (hq : readChar buf i0 = '"') :
    ((∀ k, i0 < k → k < buf.length →
        readChar buf k ≠ '"' ∧ readChar buf k ≠ '\x00') →
      tokenizeString buf i0 = some ({ Ty := .INVALID }, buf.length)) ∧
    (∀ j, i0 < j → readChar buf j = '"' →
      (∀ k, i0 < k → k < j → readChar buf k ≠ '"' ∧ readChar buf k ≠ '\x00') →
      j - (i0 + 1) < 64 →
      tokenizeString buf i0 =
        some ({ Ty := .STRING,
                Str := String.mk ((List.range (j - (i0 + 1))).map
                  fun k => readChar buf (i0 + 1 + k)) }, j + 1)) :=
  tokenize_string_spec buf i0 hq

/-- Witness for C9: the 3-byte buffer `"ab` has no closing quote before
end-of-data and tokenizes as `INVALID`; the buffer `"ab"x` closes and
yields a `STRING` token whose text is the raw bytes `ab`. -/
theorem c9_string_tokens_witness :
    tokenizeString ("\"ab".toList) 0 = some ({ Ty := .INVALID }, 3) ∧
    tokenizeString ("\"ab\"x".toList) 0 = some ({ Ty := .STRING, Str := "ab" }, 4) := by
  constructor
  · exact (c9_string_tokens ("\"ab".toList) 0 (by decide)).1
      (by
        intro k h1 h2
        have h3 : k = 1 ∨ k = 2 := by simp at h2; omega
        rcases h3 with h | h <;> subst h <;> exact ⟨by decide, by decide⟩)
  · have h := (c9_string_tokens ("\"ab\"x".toList) 0 (by decide)).2 3 (by decide) (by decide)
      (by
        intro k h1 h2
        have h3 : k = 1 ∨ k = 2 := by omega
        rcases h3 with h | h <;> subst h <;> exact ⟨by decide, by decide⟩)
      (by decide)
    simpa using h

/-! ## Bridging lemmas

The C code discriminates union values by comparing `Value.Type` against a
tag; the next two definitions package the two discriminations the proofs
need, and the lemmas below restate each recursive function through them so
that later proofs can split on two cases instead of seven constructors. -/

/-- The test `Value.Type == JSON_TYPE_MEMBER`, reading the `Child` field
on success. -/
def memberChild : json_value → Option (List (String × json_value))
  | .member Child => some Child
  | _ => none

/-- The test `Value.Type == JSON_TYPE_INVALID`. -/
def isInvalid : json_value → Bool
  | .invalid => true
  | _ => false

theorem getJsonValueM_cons (k : String) (v : json_value) (rest : List json_member)
    (Key : String) :
    getJsonValueM ((k, v) :: rest) Key =
      if k = Key then v
      else
        match memberChild v with
        | some Child =>
          if isInvalid (getJsonValueM Child Key) then getJsonValueM rest Key
          else getJsonValueM Child Key
        | none => getJsonValueM rest Key := by
  cases v <;> by_cases hk : k = Key <;>
    simp [getJsonValueM, memberChild, isInvalid, hk] <;>
    (cases hgv : getJsonValueM _ Key <;> simp [isInvalid])

theorem dfsPairs_cons (k : String) (v : json_value) (rest : List json_member) :
    dfsPairs ((k, v) :: rest) =
      (k, v) :: ((match memberChild v with
                  | some Child => dfsPairs Child
                  | none => []) ++ dfsPairs rest) := by
  cases v <;> simp [dfsPairs, memberChild]

theorem membersSC_cons (k : String) (v : json_value) (rest : List json_member) :
    membersSC ((k, v) :: rest) =
      (k, v) :: ((match memberChild v with
                  | some Child => membersSC Child
                  | none => []) ++ membersSC rest) := by
  cases v <;> simp [membersSC, memberChild]

theorem wfChildren_cons (k : String) (v : json_value) (rest : List json_member) :
    wfChildren ((k, v) :: rest) =
      ((match memberChild v with
        | some Child => !Child.isEmpty && wfChildren Child
        | none => true) && wfChildren rest) := by
  cases v <;> simp [wfChildren, memberChild]

theorem wfNoInvalid_cons (k : String) (v : json_value) (rest : List json_member) :
    wfNoInvalid ((k, v) :: rest) =
      ((match memberChild v with
        | some Child => wfNoInvalid Child
        | none => !isInvalid v) && wfNoInvalid rest) := by
  cases v <;> simp [wfNoInvalid, memberChild, isInvalid]

theorem scanKeys_cons (k : String) (v : json_value) (rest : List json_member) :
    scanKeys ((k, v) :: rest) =
      k :: ((match memberChild v with
             | some Child => tailScanKeys Child
             | none => []) ++ scanKeys rest) := by
  cases v <;> simp [scanKeys, memberChild]

theorem destroyLoop_cons (k : String) (v : json_value) (rest : List json_member) :
    destroyLoop ((k, v) :: rest) =
      (match memberChild v with
       | some Child => do
         let tr ← destroyJsonMember Child
         let tr2 ← destroyLoop rest
         pure (tr ++ [.keyStr k, .memberNode (k, v)] ++ tr2)
       | none => do
         let tr2 ← destroyLoop rest
         pure (.keyStr k :: .memberNode (k, v) :: tr2)) := by
  cases v <;> simp [destroyLoop, memberChild]

theorem destroyJsonMember_cons (m : json_member) (rest : List json_member) :
    destroyJsonMember (m :: rest) = destroyLoop (m :: rest) := by
  rw [destroyJsonMember]
  simp

theorem deleteScan_cons (Key : String) (m : json_member) (k : String) (v : json_value)
    (rest : List json_member) :
    deleteScan Key m ((k, v) :: rest) =
      if k = Key then do
        let tr ← destroyJsonMember ((k, v) :: rest)
        pure (true, m :: rest, tr)
      else
        (match memberChild v with
         | some Child => do
           let (found, Child2, tr) ← deleteJsonMemberM Child Key
           if found then
             pure (true, m :: (k, .member Child2) :: rest, tr)
           else do
             let (f, l2, tr2) ← deleteScan Key (k, v) rest
             pure (f, m :: l2, tr ++ tr2)
         | none => do
           let (f, l2, tr2) ← deleteScan Key (k, v) rest
           pure (f, m :: l2, tr2)) := by
  cases v <;> by_cases hk : k = Key <;> simp [deleteScan, memberChild, hk]

/-! ## Claim C6 — what destroy frees -/

theorem traceMemberNodes_append (a b : List free_event) :
    traceMemberNodes (a ++ b) = traceMemberNodes a ++ traceMemberNodes b := by
  induction a with
  | nil => rfl
  | cons e tr ih => cases e <;> simp [traceMemberNodes, ih]

/-- Under well-formedness (no null `MemberRef` children), `destroyLoop`
completes, and the member nodes it frees are exactly — one free each —
the nodes reachable through sibling and `MemberRef` edges. -/
theorem destroyLoop_perm :
    ∀ (l : List json_member), wfChildren l = true →
      ∃ tr, destroyLoop l = some tr ∧ (traceMemberNodes tr).Perm (membersSC l) := by
  have main : ∀ (n : Nat) (l : List json_member), sizeOf l ≤ n → wfChildren l = true →
      ∃ tr, destroyLoop l = some tr ∧ (traceMemberNodes tr).Perm (membersSC l) := by
    intro n
    induction n with
    | zero =>
      intro l hs
      cases l <;> simp at hs
    | succ n ih =>
      intro l hs hwf
      cases l with
      | nil => exact ⟨[], by simp [destroyLoop], by simp [traceMemberNodes, membersSC]⟩
      | cons m rest =>
        obtain ⟨k, v⟩ := m
        rw [wfChildren_cons] at hwf
        rw [destroyLoop_cons, membersSC_cons]
        have hszr : sizeOf rest ≤ n := by simp at hs; omega
        cases hmc : memberChild v with
        | none =>
          simp only [hmc, Bool.and_eq_true] at hwf ⊢
          obtain ⟨trr, htrr, hpr⟩ := ih rest hszr hwf.2
          refine ⟨.keyStr k :: .memberNode (k, v) :: trr, ?_, ?_⟩
          · rw [htrr]; rfl
          · simp only [traceMemberNodes]
            simpa using hpr.cons (k, v)
        | some Child =>
          simp only [hmc, Bool.and_eq_true, Bool.not_eq_true'] at hwf ⊢
          obtain ⟨⟨hne, hwfc⟩, hwfr⟩ := hwf
          have hszc : sizeOf Child ≤ n := by
            cases v <;> simp [memberChild] at hmc
            subst hmc
            simp at hs
            omega
          obtain ⟨trc, htrc, hpc⟩ := ih Child hszc hwfc
          obtain ⟨trr, htrr, hpr⟩ := ih rest hszr hwfr
          have hdm : destroyJsonMember Child = some trc := by
            cases Child with
            | nil => simp at hne
            | cons c0 ct => rw [destroyJsonMember_cons]; exact htrc
          refine ⟨trc ++ [.keyStr k, .memberNode (k, v)] ++ trr, ?_, ?_⟩
          · rw [hdm, htrr]; rfl
          · rw [traceMemberNodes_append, traceMemberNodes_append]
            simp only [traceMemberNodes]
            have h1 : traceMemberNodes trc ++ [(k, v)] ++ traceMemberNodes trr =
                traceMemberNodes trc ++ (k, v) :: traceMemberNodes trr := by simp
            rw [h1]
            exact List.perm_middle.trans ((hpc.append hpr).cons (k, v))
  exact fun l => main (sizeOf l) l le_rfl

/-- C6 (amended): for a non-empty root with non-null nested children,
`destroyJsonMember` frees each member reachable through sibling links and
`MemberRef` ownership edges exactly once (the child subtree before the
member itself, then the sibling); members held as array elements and
string payloads are **not** freed. -/
theorem c6_destroy_frees_sibling_child_nodes_once (l : List json_member)
    (hne : l ≠ []) (hwf : wfChildren l = true) :
    ∃ tr, destroyJsonMember l = some tr ∧
      (traceMemberNodes tr).Perm (membersSC l) := by
  obtain ⟨tr, htr, hp⟩ := destroyLoop_perm l hwf
  cases l with
  | nil => exact absurd rfl hne
  | cons m rest => exact ⟨tr, by rw [destroyJsonMember_cons]; exact htr, hp⟩

/-- Witness for C6 at a concrete two-level tree. -/
theorem c6_destroy_frees_sibling_child_nodes_once_witness :
    ([("a", json_value.member [("b", .number 1)]), ("c", .null)] ≠ []) ∧
    wfChildren [("a", json_value.member [("b", .number 1)]), ("c", .null)] = true ∧
    ∃ tr, destroyJsonMember [("a", json_value.member [("b", .number 1)]), ("c", .null)] =
        some tr ∧
      (traceMemberNodes tr).Perm
        (membersSC [("a", json_value.member [("b", .number 1)]), ("c", .null)]) := by
  refine ⟨by simp, by simp [wfChildren], ?_⟩
  exact c6_destroy_frees_sibling_child_nodes_once _ (by simp) (by simp [wfChildren])

/-- C6 counterexample: the claim as stated — destroy frees every reachable
member *including members held as nested-array object elements*, and frees
each member's string payload — fails on this tree: the trace frees the two
top-level member nodes and their keys only; the member `("x", 1)` held as
an array element is never freed (2 freed nodes versus 3 reachable ones),
and the string payload `"pay"` is never freed. -/
theorem c6_counterexample_array_and_payload :
    destroyJsonMember
        [("a", json_value.str "pay"),
         ("b", json_value.array [.member [("x", .number 1)]] 1)] =
      some [.keyStr "a", .memberNode ("a", .str "pay"),
            .keyStr "b", .memberNode ("b", .array [.member [("x", .number 1)]] 1)] ∧
    (traceMemberNodes [.keyStr "a", .memberNode ("a", .str "pay"),
            .keyStr "b", .memberNode ("b", .array [.member [("x", .number 1)]] 1)]).length = 2 ∧
    (membersAll
        [("a", json_value.str "pay"),
         ("b", json_value.array [.member [("x", .number 1)]] 1)]).length = 3 ∧
    traceFreesKey [.keyStr "a", .memberNode ("a", .str "pay"),
            .keyStr "b", .memberNode ("b", .array [.member [("x", .number 1)]] 1)] "pay" =
      false := by
  refine ⟨?_, ?_, ?_, ?_⟩
  · rw [destroyJsonMember_cons, destroyLoop_cons]
    simp only [memberChild]
    rw [destroyLoop_cons]
    simp only [memberChild]
    rw [destroyLoop]
    rfl
  · rfl
  · simp [membersAll, valueMembersAll, elemsMembersAll]
  · rfl

/-! ## Claim C7 — deleteJsonMember -/

/-- The scanning loop of `deleteJsonMember(json_member*, ·)` always
completes under well-formedness, and reports success exactly when the key
occurs among the keys it examines (`scanKeys` of the successor chain). -/
theorem deleteScan_spec (Key : String) :
    ∀ (m : json_member) (rest : List json_member), wfChildren rest = true →
      ∃ f l2 tr, deleteScan Key m rest = some (f, l2, tr) ∧
        (f = true ↔ Key ∈ scanKeys rest) := by
  have main : ∀ (n : Nat) (m : json_member) (rest : List json_member), sizeOf rest ≤ n →
      wfChildren rest = true →
      ∃ f l2 tr, deleteScan Key m rest = some (f, l2, tr) ∧
        (f = true ↔ Key ∈ scanKeys rest) := by
    intro n
    induction n with
    | zero =>
      intro m rest hs
      cases rest <;> simp at hs
    | succ n ih =>
      intro m rest hs hwf
      cases rest with
      | nil =>
        exact ⟨false, [m], [], by rw [deleteScan], by simp [scanKeys]⟩
      | cons p rest2 =>
        obtain ⟨k, v⟩ := p
        rw [wfChildren_cons] at hwf
        rw [deleteScan_cons, scanKeys_cons]
        have hszr : sizeOf rest2 ≤ n := by simp at hs; omega
        by_cases hk : k = Key
        · subst hk
          simp only [if_pos rfl, Bool.and_eq_true] at hwf ⊢
          obtain ⟨tr, htr, _⟩ := destroyLoop_perm ((k, v) :: rest2)
            (by rw [wfChildren_cons]; simp [hwf.1, hwf.2])
          refine ⟨true, m :: rest2, tr, ?_, by simp⟩
          rw [destroyJsonMember_cons, htr]
          rfl
        · rw [if_neg hk]
          cases hmc : memberChild v with
          | none =>
            simp only [hmc, Bool.and_eq_true] at hwf ⊢
            obtain ⟨f2, l2, tr2, hd2, hiff2⟩ := ih (k, v) rest2 hszr hwf.2
            refine ⟨f2, m :: l2, tr2, ?_, ?_⟩
            · rw [hd2]; rfl
            · simp only [List.mem_cons, List.nil_append]
              constructor
              · intro hf
                exact Or.inr (hiff2.mp hf)
              · rintro (h | h)
                · exact absurd h.symm hk
                · exact hiff2.mpr h
          | some Child =>
            simp only [hmc, Bool.and_eq_true, Bool.not_eq_true'] at hwf ⊢
            obtain ⟨⟨hne, hwfc⟩, hwfr⟩ := hwf
            have hszc : sizeOf Child ≤ n := by
              cases v <;> simp [memberChild] at hmc
              subst hmc
              simp at hs
              omega
            cases Child with
            | nil => simp at hne
            | cons c0 ct =>
              have hwfct : wfChildren ct = true := by
                rw [wfChildren_cons] at hwfc
                simp only [Bool.and_eq_true] at hwfc
                obtain ⟨c00, c01⟩ := c0
                exact hwfc.2
              have hszct : sizeOf ct ≤ n := by simp at hszc; omega
              obtain ⟨fc, c2, trc, hdc, hiffc⟩ := ih c0 ct hszct hwfct
              have hdm : deleteJsonMemberM (c0 :: ct) Key = some (fc, c2, trc) := by
                rw [deleteJsonMemberM]; exact hdc
              have htail : tailScanKeys (c0 :: ct) = scanKeys ct := by rw [tailScanKeys]
              cases fc with
              | true =>
                refine ⟨true, m :: (k, .member c2) :: rest2, trc, ?_, ?_⟩
                · rw [hdm]; rfl
                · simp only [htail]
                  simp [hiffc.mp rfl]
              | false =>
                obtain ⟨f2, l2, tr2, hd2, hiff2⟩ := ih (k, v) rest2 hszr hwfr
                refine ⟨f2, m :: l2, trc ++ tr2, ?_, ?_⟩
                · rw [hdm, hd2]; rfl
                · have hnc : Key ∉ scanKeys ct := by
                    intro hmem
                    exact absurd (hiffc.mpr hmem) (by simp)
                  rw [htail]
                  simp only [List.mem_cons, List.mem_append]
                  constructor
                  · intro hf
                    exact Or.inr (Or.inr (hiff2.mp hf))
                  · rintro (h | h | h)
                    · exact absurd h.symm hk
                    · exact absurd h hnc
                    · exact hiff2.mpr h
  exact fun m rest => main (sizeOf rest) m rest le_rfl

/-- C7 (amended): under well-formedness, `deleteJsonMember(json_object&,·)`
behaves as follows.  An empty object logs a warning and returns **true**
with nothing deleted.  When the head member's key matches, the head
reference is re-pointed to the successor and the unlinked head is passed
to `destroyJsonMember`, whose sibling walk frees the head **and every
following sibling subtree** (the trace of the whole old list), not just
the match.  Otherwise the scanning loop searches only successor
positions — each successor's key, then (for a `MemberRef` successor) the
child list under the same successor-only rule — so, unlike lookup, a
nested child list's head key and the head member's own subtree are never
examined; the call reports success exactly when the key occurs among the
keys so searched. -/
theorem c7_delete_search_and_returns (obj : json_object) (Key : String)
    (hwf : wfChildren obj.First = true) :
    (obj.First = [] → deleteJsonMemberObj obj Key = some (true, obj, [])) ∧
    (∀ m rest, obj.First = m :: rest → m.1 = Key →
      ∃ tr, destroyJsonMember (m :: rest) = some tr ∧
        deleteJsonMemberObj obj Key = some (true, { obj with First := rest }, tr)) ∧
    (∀ m rest, obj.First = m :: rest → m.1 ≠ Key →
      ∃ f l2 tr, deleteJsonMemberObj obj Key = some (f, { obj with First := l2 }, tr) ∧
        (f = true ↔ Key ∈ scanKeys rest)) := by
  refine ⟨?_, ?_, ?_⟩
  · intro h
    rw [deleteJsonMemberObj, h]
  · intro m rest hFirst hkey
    rw [hFirst] at hwf
    obtain ⟨k, v⟩ := m
    obtain ⟨tr, htr, _⟩ := destroyLoop_perm ((k, v) :: rest) hwf
    have hdm : destroyJsonMember ((k, v) :: rest) = some tr := by
      rw [destroyJsonMember_cons]; exact htr
    refine ⟨tr, hdm, ?_⟩
    simp only at hkey
    subst hkey
    rw [deleteJsonMemberObj, hFirst]
    simp [hdm]
  · intro m rest hFirst hkey
    rw [hFirst] at hwf
    obtain ⟨k, v⟩ := m
    rw [wfChildren_cons] at hwf
    simp only [Bool.and_eq_true] at hwf
    simp only at hkey
    obtain ⟨f, l2, tr, hd, hiff⟩ := deleteScan_spec Key (k, v) rest hwf.2
    have hdm : deleteJsonMemberM ((k, v) :: rest) Key = some (f, l2, tr) := by
      rw [deleteJsonMemberM]; exact hd
    refine ⟨f, l2, tr, ?_, hiff⟩
    rw [deleteJsonMemberObj, hFirst]
    simp [hkey, hdm]

/-- Witness for C7 at a concrete object whose head key does not match. -/
theorem c7_delete_search_and_returns_witness :
    wfChildren [("a", json_value.null), ("b", json_value.null)] = true ∧
    (∃ f l2 tr,
      deleteJsonMemberObj { First := [("a", json_value.null), ("b", json_value.null)] } "b" =
        some (f, { First := l2, IsValid := true }, tr) ∧
      (f = true ↔ "b" ∈ scanKeys [("b", json_value.null)])) := by
  refine ⟨by simp [wfChildren], ?_⟩
  exact (c7_delete_search_and_returns
      { First := [("a", json_value.null), ("b", json_value.null)] } "b"
      (by simp [wfChildren])).2.2 ("a", .null) [("b", .null)] rfl (by simp)

/-- C7 counterexample: the claim as stated fails three ways.  (1) Deleting
from an empty object returns `true` though nothing was deleted and no
member matched.  (2) Delete does not target the member lookup finds: in
`{"a":{"b":1},"b":2}` lookup returns the nested `1`, yet delete removes
the top-level `("b", 2)` and leaves the nested `("b", 1)` in place.
(3) Delete does not free exactly the first match: unlinking `("b", null)`
from a three-member list also frees the following sibling `("c", null)`,
which remains linked in the surviving structure. -/
theorem c7_counterexample_empty_precedence_overfree :
    deleteJsonMemberObj { First := [] } "x" = some (true, { First := [] }, []) ∧
    getJsonValueM [("a", json_value.member [("b", .number 1)]), ("b", .number 2)] "b" =
      .number 1 ∧
    deleteJsonMemberObj
        { First := [("a", json_value.member [("b", .number 1)]), ("b", .number 2)] } "b" =
      some (true, { First := [("a", json_value.member [("b", .number 1)])] },
        [.keyStr "b", .memberNode ("b", .number 2)]) ∧
    deleteJsonMemberObj
        { First := [("a", json_value.null), ("b", json_value.null), ("c", json_value.null)] }
        "b" =
      some (true, { First := [("a", json_value.null), ("c", json_value.null)] },
        [.keyStr "b", .memberNode ("b", .null), .keyStr "c", .memberNode ("c", .null)]) := by
  refine ⟨rfl, ?_, ?_, ?_⟩
  · simp [getJsonValueM]
  · rw [deleteJsonMemberObj]
    simp only [if_neg (by decide : ¬ ("a" = "b"))]
    rw [deleteJsonMemberM, deleteScan_cons]
    simp only [if_pos rfl]
    rw [destroyJsonMember_cons, destroyLoop_cons]
    simp only [memberChild]
    rw [destroyLoop]
    rfl
  · rw [deleteJsonMemberObj]
    simp only [if_neg (by decide : ¬ ("a" = "b"))]
    rw [deleteJsonMemberM, deleteScan_cons]
    simp only [if_pos rfl]
    rw [destroyJsonMember_cons, destroyLoop_cons]
    simp only [memberChild]
    rw [destroyLoop_cons]
    simp only [memberChild]
    rw [destroyLoop]
    rfl

/-! ## Claim C4 — lookup precedence -/

/-- Under `wfNoInvalid`, every pair in the depth-first enumeration holds a
non-invalid value. -/
theorem dfsPairs_noInvalid :
    ∀ (l : List json_member), wfNoInvalid l = true →
      ∀ p ∈ dfsPairs l, isInvalid p.2 = false := by
  have main : ∀ (n : Nat) (l : List json_member), sizeOf l ≤ n → wfNoInvalid l = true →
      ∀ p ∈ dfsPairs l, isInvalid p.2 = false := by
    intro n
    induction n with
    | zero =>
      intro l hs
      cases l <;> simp at hs
    | succ n ih =>
      intro l hs hwf p hp
      cases l with
      | nil => simp [dfsPairs] at hp
      | cons m rest =>
        obtain ⟨k, v⟩ := m
        rw [wfNoInvalid_cons] at hwf
        simp only [Bool.and_eq_true] at hwf
        rw [dfsPairs_cons] at hp
        have hszr : sizeOf rest ≤ n := by simp at hs; omega
        simp only [List.mem_cons, List.mem_append] at hp
        rcases hp with hp | hp | hp
        · subst hp
          cases hmc : memberChild v with
          | some Child => simp [hmc] at hwf
                          cases v <;> simp [memberChild] at hmc <;> simp [isInvalid]
          | none =>
            simp only [hmc, Bool.not_eq_true'] at hwf
            exact hwf.1
        · cases hmc : memberChild v with
          | none => simp [hmc] at hp
          | some Child =>
            simp only [hmc] at hp hwf
            have hszc : sizeOf Child ≤ n := by
              cases v <;> simp [memberChild] at hmc
              subst hmc
              simp at hs
              omega
            exact ih Child hszc hwf.1 p hp
        · exact ih rest hszr hwf.2 p hp
  exact fun l hwf => main (sizeOf l) l le_rfl hwf

/-- C4: on any tree whose stored values are never of invalid kind (the
insert operations guarantee this), `getJsonValue` returns exactly the
first match of the depth-first enumeration: a member's own key first,
then — when its value is a `MemberRef` — the nested list, then the next
sibling. -/
theorem c4_lookup_is_depth_first_first_match (l : List json_member) (Key : String)
    (hwf : wfNoInvalid l = true) :
    getJsonValueM l Key = lookupFirst l Key := by
  have main : ∀ (n : Nat) (l : List json_member), sizeOf l ≤ n → wfNoInvalid l = true →
      getJsonValueM l Key = lookupFirst l Key := by
    intro n
    induction n with
    | zero =>
      intro l hs
      cases l <;> simp at hs
    | succ n ih =>
      intro l hs hwf
      cases l with
      | nil => simp [getJsonValueM, lookupFirst, dfsPairs, List.find?]
      | cons m rest =>
        obtain ⟨k, v⟩ := m
        rw [wfNoInvalid_cons] at hwf
        simp only [Bool.and_eq_true] at hwf
        have hszr : sizeOf rest ≤ n := by simp at hs; omega
        rw [getJsonValueM_cons]
        rw [lookupFirst, dfsPairs_cons]
        rw [List.find?]
        by_cases hk : k = Key
        · simp [hk]
        · have hbeq : ((k, v).1 == Key) = false := by simp [hk]
          rw [hbeq]
          rw [if_neg hk]
          rw [List.find?_append]
          cases hmc : memberChild v with
          | none =>
            simp only [hmc] at hwf ⊢
            simp only [List.find?_nil, Option.none_orElse]
            exact ih rest hszr hwf.2
          | some Child =>
            simp only [hmc] at hwf ⊢
            have hszc : sizeOf Child ≤ n := by
              cases v <;> simp [memberChild] at hmc
              subst hmc
              simp at hs
              omega
            have hc := ih Child hszc hwf.1
            cases hfind : (dfsPairs Child).find? (fun p => p.1 == Key) with
            | none =>
              have hcv : getJsonValueM Child Key = .invalid := by
                rw [hc, lookupFirst, hfind]
              rw [hcv]
              simp [isInvalid, Option.or, ih rest hszr hwf.2, lookupFirst]
            | some p =>
              have hpin : p ∈ dfsPairs Child := List.mem_of_find?_eq_some hfind
              have hpni : isInvalid p.2 = false := dfsPairs_noInvalid Child hwf.1 p hpin
              have hcv : getJsonValueM Child Key = p.2 := by
                rw [hc, lookupFirst, hfind]
              rw [hcv]
              simp [hpni, Option.or]
  exact main (sizeOf l) l le_rfl hwf

/-- Witness for C4: the parse of `{"a":{"b":1},"b":2}` (nested `b` before
the sibling `b`), where lookup returns the nested `Number 1`. -/
theorem c4_lookup_is_depth_first_first_match_witness :
    parseStringToJson 50 ("\x7b\"a\":\x7b\"b\":1\x7d,\"b\":2\x7d".toList) 19 0 =
      some ({ First := [("a", .member [("b", .number 1)]), ("b", .number 2)],
              IsValid := true }, 19) ∧
    wfNoInvalid [("a", json_value.member [("b", .number 1)]), ("b", .number 2)] = true ∧
    getJsonValueM [("a", json_value.member [("b", .number 1)]), ("b", .number 2)] "b" =
      lookupFirst [("a", json_value.member [("b", .number 1)]), ("b", .number 2)] "b" ∧
    getJsonValue { First := [("a", json_value.member [("b", .number 1)]), ("b", .number 2)],
                   IsValid := true } "b" = .number 1 := by
  refine ⟨?_, by simp [wfNoInvalid], ?_, ?_⟩
  · simp +decide [parseStringToJson, parseOuter, parseMembers, parseValue, parseComma,
      tokenizeString, wsSkipIdx, wsSkipGo, strEnd, strEndGo, numEnd, numEndGo,
      readChar, subStr, matchLit, isWhiteSpace, isNumber,
      addJsonMemberNumber, addJsonMemberObject, appendJsonMember, atofQ, natOfDigits, digitVal]
  · exact c4_lookup_is_depth_first_first_match _ "b" (by simp [wfNoInvalid])
  · simp [getJsonValue, getJsonValueM]

/-! ## Claim C3 — round-tripping

An abstract document type describes the class of JSON object texts the
(amended) round-trip theorem quantifies over; `renderMembers` renders it in
exactly the serializer's output format (single line, `"key" : value`,
`", "` separators). -/

mutual

/-- An abstract JSON value: integer number, string, boolean, null, object,
array. -/
inductive jdoc_value where
  | jint (n : Int)
  | jstr (s : String)
  | jbool (b : Bool)
  | jnull
  | jobj (ms : jmember_list)
  | jarr (es : jelem_list)

/-- An ordered list of key/value pairs of an abstract JSON object. -/
inductive jmember_list where
  | nil
  | cons (k : String) (v : jdoc_value) (rest : jmember_list)

/-- A list of abstract JSON array elements. -/
inductive jelem_list where
  | jnil
  | jcons (v : jdoc_value) (rest : jelem_list)

end

mutual

/-- Canonical single-line rendering of an abstract value, matching the
serializer's format. -/
def renderValue : jdoc_value → List Char
  | .jint n => (intRepr n).toList
  | .jstr s => '"' :: s.toList ++ ['"']
  | .jbool b => if b then ['t', 'r', 'u', 'e'] else ['f', 'a', 'l', 's', 'e']
  | .jnull => ['n', 'u', 'l', 'l']
  | .jobj ms => '{' :: renderMembers ms ++ ['}']
  | .jarr es => '[' :: renderElems es ++ [']']

/-- Rendering of the member list (without the braces): `"key" : value`
pairs joined by `", "`. -/
def renderMembers : jmember_list → List Char
  | .nil => []
  | .cons k v .nil => '"' :: k.toList ++ ['"', ' ', ':', ' '] ++ renderValue v
  | .cons k v (.cons k2 v2 rest) =>
    '"' :: k.toList ++ ['"', ' ', ':', ' '] ++ renderValue v ++ [',', ' '] ++
      renderMembers (.cons k2 v2 rest)

/-- Rendering of array elements joined by `", "` (without the brackets). -/
def renderElems : jelem_list → List Char
  | .jnil => []
  | .jcons v .jnil => renderValue v
  | .jcons v (.jcons v2 rest) => renderValue v ++ [',', ' '] ++ renderElems (.jcons v2 rest)

end

/-- A text atom fits a token: under 64 bytes, no quote, no NUL. -/
def strOK (s : String) : Bool :=
  s.toList.length < 64 && s.toList.all fun c => c ≠ '"' && c ≠ '\x00'

mutual

/-- Well-formedness of an abstract value for the amended round-trip:
numbers are integers in `int32` range (the serializer casts through
`int32_t`), strings and keys are token-sized without quotes or NULs,
objects are non-empty (the parser rejects `{}` and the insert API rejects
empty children). -/
def wfV : jdoc_value → Bool
  | .jint n => decide (-2147483648 ≤ n) && decide (n < 2147483648) &&
      decide ((intRepr n).toList.length < 64)
  | .jstr s => strOK s
  | .jbool _ => true
  | .jnull => true
  | .jobj ms => isConsMs ms && wfMs ms
  | .jarr es => wfEs es

/-- Well-formedness of a member list. -/
def wfMs : jmember_list → Bool
  | .nil => true
  | .cons k v rest => strOK k && wfV v && wfMs rest

/-- Well-formedness of array elements: scalars and (non-empty) objects
only — a nested array is a fatal parse error in the reference, so it is
excluded here. -/
def wfEs : jelem_list → Bool
  | .jnil => true
  | .jcons (.jarr _) _ => false
  | .jcons v rest => wfV v && wfEs rest

/-- Non-emptiness of a member list. -/
def isConsMs : jmember_list → Bool
  | .nil => false
  | .cons _ _ _ => true

end

mutual

/-- The value-model tree the parser builds for an abstract value. -/
def docValue : jdoc_value → json_value
  | .jint n => .number (n : ℚ)
  | .jstr s => .str s
  | .jbool b => .boolean b
  | .jnull => .null
  | .jobj ms => .member (docMembers ms)
  | .jarr es => .array (docElems es) (elemCount es)

/-- The member list the parser builds. -/
def docMembers : jmember_list → List json_member
  | .nil => []
  | .cons k v rest => (k, docValue v) :: docMembers rest

/-- The array-element values the parser builds. -/
def docElems : jelem_list → List json_value
  | .jnil => []
  | .jcons v rest => docValue v :: docElems rest

/-- The number of elements. -/
def elemCount : jelem_list → Nat
  | .jnil => 0
  | .jcons _ rest => elemCount rest + 1

end

/-! ### Decimal round-trip facts -/

theorem digitVal_digitChar : ∀ d, d < 10 → digitVal (digitChar d) = d := by decide

theorem isNumber_digitChar : ∀ d, d < 10 → isNumber (digitChar d) = true := by decide

theorem natOfDigits_append_one (a : List Char) (c : Char) :
    natOfDigits (a ++ [c]) = 10 * natOfDigits a + digitVal c := by
  simp [natOfDigits, List.foldl_append]

theorem natToDigitsGo_spec :
    ∀ (f m : Nat), m ≤ f →
      natOfDigits (natToDigitsGo f m) = m ∧
      (∀ c ∈ natToDigitsGo f m, isNumber c = true) ∧
      (0 < m → natToDigitsGo f m ≠ []) := by
  intro f
  induction f with
  | zero =>
    intro m hm
    have h0 : m = 0 := by omega
    subst h0
    exact ⟨rfl, by simp [natToDigitsGo], by omega⟩
  | succ f ih =>
    intro m hm
    match m with
    | 0 => exact ⟨rfl, by simp [natToDigitsGo], by omega⟩
    | n + 1 =>
      have hdiv : (n + 1) / 10 ≤ f := by
        have := Nat.div_lt_self (Nat.succ_pos n) (by omega : 1 < 10)
        omega
      obtain ⟨hval, hdig, _⟩ := ih ((n + 1) / 10) hdiv
      have hmod : (n + 1) % 10 < 10 := Nat.mod_lt _ (by omega)
      refine ⟨?_, ?_, ?_⟩
      · rw [natToDigitsGo, natOfDigits_append_one, hval, digitVal_digitChar _ hmod]
        omega
      · intro c hc
        rw [natToDigitsGo] at hc
        rcases List.mem_append.mp hc with h | h
        · exact hdig c h
        · simp at h
          subst h
          exact isNumber_digitChar _ hmod
      · intro _
        rw [natToDigitsGo]
        simp

theorem natToDigits_spec (m : Nat) :
    natOfDigits (natToDigits m) = m ∧
    (∀ c ∈ natToDigits m, isNumber c = true) ∧
    (0 < m → natToDigits m ≠ []) :=
  natToDigitsGo_spec m m le_rfl

theorem natRepr_digits (m : Nat) : ∀ c ∈ (natRepr m).toList, isNumber c = true := by
  intro c hc
  rw [natRepr] at hc
  by_cases h0 : m = 0
  · simp [h0] at hc
    subst hc
    decide
  · rw [if_neg h0] at hc
    exact (natToDigits_spec m).2.1 c hc

theorem natRepr_value (m : Nat) : natOfDigits ((natRepr m).toList) = m := by
  rw [natRepr]
  by_cases h0 : m = 0
  · subst h0
    decide
  · rw [if_neg h0]
    exact (natToDigits_spec m).1

theorem natRepr_ne_nil (m : Nat) : (natRepr m).toList ≠ [] := by
  rw [natRepr]
  by_cases h0 : m = 0
  · simp [h0]
  · rw [if_neg h0]
    exact (natToDigits_spec m).2.2 (by omega)

theorem takeWhile_all {p : Char → Bool} :
    ∀ (l : List Char), (∀ c ∈ l, p c = true) →
      l.takeWhile p = l ∧ l.dropWhile p = [] := by
  intro l
  induction l with
  | nil => intro _; exact ⟨rfl, rfl⟩
  | cons c cs ih =>
    intro h
    have hc : p c = true := h c (by simp)
    obtain ⟨h1, h2⟩ := ih fun d hd => h d (by simp [hd])
    rw [List.takeWhile_cons, List.dropWhile_cons]
    simp [hc, h1, h2]

/-- `atof` of a pure digit run is its decimal value. -/
theorem atofQ_digits (ds : List Char) (h : ∀ c ∈ ds, isNumber c = true) :
    atofQ (String.mk ds) = (natOfDigits ds : ℚ) := by
  have hhead : (String.mk ds).toList.head? ≠ some '-' := by
    cases ds with
    | nil => simp
    | cons c cs =>
      have := h c (by simp)
      intro hcon
      simp at hcon
      subst hcon
      simp [isNumber] at this
  obtain ⟨htake, hdrop⟩ := takeWhile_all ds h
  rw [atofQ]
  simp only [hhead, if_neg, if_false]
  have hl : (String.mk ds).toList = ds := rfl
  rw [hl] at *
  simp [if_neg hhead, htake, hdrop]

/-- `atof ∘ intRepr` is the identity: parsing the rendered decimal integer
recovers it exactly. -/
theorem atofQ_intRepr (n : Int) : atofQ (intRepr n) = (n : ℚ) := by
  rw [intRepr]
  by_cases hn : n < 0
  · rw [if_pos hn]
    have hdig := natRepr_digits n.natAbs
    have htl : ("-" ++ natRepr n.natAbs).toList = '-' :: (natRepr n.natAbs).data := by
      simp [String.toList]
    obtain ⟨htake, hdrop⟩ := takeWhile_all ((natRepr n.natAbs).data) hdig
    rw [atofQ]
    simp only [htl]
    simp [htake, hdrop]
    have hv : natOfDigits ((natRepr n.natAbs).data) = n.natAbs := natRepr_value n.natAbs
    rw [hv]
    have h3 : ((n.natAbs : ℚ)) = -(n : ℚ) := by
      rw [Int.cast_natAbs, abs_of_neg hn]
      push_cast
      ring
    rw [h3]
    ring
  · rw [if_neg hn]
    have h := atofQ_digits ((natRepr n.natAbs).toList) (natRepr_digits n.natAbs)
    have hmk : String.mk ((natRepr n.natAbs).toList) = natRepr n.natAbs := rfl
    rw [hmk] at h
    rw [h, natRepr_value]
    rw [Int.cast_natAbs, abs_of_nonneg (by omega : (0 : Int) ≤ n)]

theorem truncQ_intCast (n : Int) : truncQ (n : ℚ) = n := by
  rw [truncQ]
  by_cases hn : (n : ℚ) < 0
  · rw [if_pos hn, ← Int.cast_neg, Int.floor_intCast]
    omega
  · rw [if_neg hn]
    simp [Int.floor_intCast]

theorem isFractionalPartZero_intCast (n : Int) :
    isFractionalPartZero (n : ℚ) = true := by
  rw [isFractionalPartZero, truncQ_intCast]
  simp

/-! ### The serializer on parser-built trees -/

theorem strmk_append (a b : List Char) : String.mk a ++ String.mk b = String.mk (a ++ b) := rfl

theorem wfEs_extract {v : jdoc_value} {rest : jelem_list}
    (h : wfEs (.jcons v rest) = true) : wfV v = true ∧ wfEs rest = true := by
  cases v <;> simp_all [wfEs, wfV]

/-- The serializer prints the tree the parser builds for a well-formed
document back to exactly its canonical rendering. -/
theorem printDoc_round :
    ∀ (n : Nat),
      (∀ v : jdoc_value, sizeOf v ≤ n → wfV v = true →
        printJsonValue (docValue v) = some (String.mk (renderValue v))) ∧
      (∀ ms : jmember_list, sizeOf ms ≤ n → wfMs ms = true →
        printMemberChain (docMembers ms) = some (String.mk (renderMembers ms))) ∧
      (∀ es : jelem_list, sizeOf es ≤ n → wfEs es = true →
        printArraySlots (docElems es) (elemCount es) = some (String.mk (renderElems es))) := by
  intro n
  induction n with
  | zero =>
    refine ⟨?_, ?_, ?_⟩
    · intro v hs; cases v <;> simp at hs
    · intro ms hs; cases ms <;> simp at hs
    · intro es hs; cases es <;> simp at hs
  | succ n ihn =>
    obtain ⟨ihV, ihM, ihE⟩ := ihn
    refine ⟨?_, ?_, ?_⟩
    · intro v hs hwf
      cases v with
      | jint m =>
        simp [docValue, renderValue, printJsonValue, isFractionalPartZero_intCast,
          truncQ_intCast]
      | jstr s =>
        simp only [docValue, renderValue, printJsonValue]
        refine congrArg some (String.ext ?_)
        simp [String.data_append]
      | jbool b =>
        cases b <;> simp only [docValue, renderValue, printJsonValue] <;>
          exact congrArg some (String.ext (by simp))
      | jnull =>
        simp only [docValue, renderValue, printJsonValue]
      | jobj ms =>
        rw [wfV] at hwf
        simp only [Bool.and_eq_true] at hwf
        have hms := ihM ms (by simp at hs; omega) hwf.2
        cases ms with
        | nil => simp [isConsMs] at hwf
        | cons k v2 rest =>
          rw [docMembers] at hms
          simp only [docValue, renderValue, docMembers, printJsonValue]
          rw [printJsonMember, hms]
          show some _ = _
          refine congrArg some (String.ext ?_)
          simp [String.data_append]
      | jarr es =>
        rw [wfV] at hwf
        have hes := ihE es (by simp at hs; omega) hwf
        simp only [docValue, renderValue, printJsonValue]
        rw [hes]
        show some _ = _
        refine congrArg some (String.ext ?_)
        simp [String.data_append]
    · intro ms hs hwf
      cases ms with
      | nil => simp [docMembers, renderMembers, printMemberChain]
      | cons k v rest =>
        rw [wfMs] at hwf
        simp only [Bool.and_eq_true] at hwf
        obtain ⟨⟨hk, hv⟩, hrest⟩ := hwf
        have hV := ihV v (by simp at hs; omega) hv
        cases rest with
        | nil =>
          simp only [docMembers, renderMembers]
          rw [printMemberChain, hV]
          show some _ = _
          refine congrArg some (String.ext ?_)
          simp [String.data_append]
        | cons k2 v2 rest2 =>
          have hM := ihM (.cons k2 v2 rest2) (by simp at hs; simp; omega) hrest
          rw [docMembers] at hM
          simp only [docMembers, renderMembers]
          rw [printMemberChain, hV, hM]
          show some _ = _
          refine congrArg some (String.ext ?_)
          simp [String.data_append]
    · intro es hs hwf
      cases es with
      | jnil => simp [docElems, renderElems, elemCount, printArraySlots]
      | jcons v rest =>
        obtain ⟨hv, hrest⟩ := wfEs_extract hwf
        have hV := ihV v (by simp at hs; omega) hv
        cases rest with
        | jnil =>
          simp only [docElems, renderElems, elemCount]
          rw [printArraySlots, hV]
        | jcons v2 rest2 =>
          have hE := ihE (.jcons v2 rest2) (by simp at hs; simp; omega) hrest
          simp only [docElems, renderElems, elemCount] at hE ⊢
          rw [printArraySlots, hV, hE]
          show some _ = _
          refine congrArg some (String.ext ?_)
          simp [String.data_append]

/-! ### Token-step lemmas

How `tokenizeString` behaves at a position where the buffer holds a known
piece of rendered text. -/

/-- The buffer holds the text `s` starting at position `p`. -/
def chunk (buf : List Char) (p : Nat) (s : List Char) : Prop :=
  ∀ k, k < s.length → readChar buf (p + k) = s.getD k '\x00'

theorem chunk_nil (buf : List Char) (p : Nat) : chunk buf p [] := by
  intro k hk
  simp at hk

theorem chunk_cons_iff (buf : List Char) (p : Nat) (c : Char) (s : List Char) :
    chunk buf p (c :: s) ↔ readChar buf p = c ∧ chunk buf (p + 1) s := by
  constructor
  · intro h
    refine ⟨by simpa using h 0 (by simp), ?_⟩
    intro k hk
    have := h (k + 1) (by simp; omega)
    simpa [Nat.add_comm, Nat.add_assoc, Nat.add_left_comm] using this
  · rintro ⟨h0, h⟩
    intro k hk
    cases k with
    | zero => simpa using h0
    | succ k =>
      have := h k (by simp at hk; omega)
      simpa [Nat.add_comm, Nat.add_assoc, Nat.add_left_comm] using this

theorem chunk_append_iff (buf : List Char) (p : Nat) (a b : List Char) :
    chunk buf p (a ++ b) ↔ chunk buf p a ∧ chunk buf (p + a.length) b := by
  induction a generalizing p with
  | nil => simp [chunk_nil]
  | cons c cs ih =>
    rw [List.cons_append, chunk_cons_iff, chunk_cons_iff, ih]
    constructor
    · rintro ⟨h0, h1, h2⟩
      exact ⟨⟨h0, h1⟩, by simpa [Nat.add_comm, Nat.add_assoc, Nat.add_left_comm] using h2⟩
    · rintro ⟨⟨h0, h1⟩, h2⟩
      exact ⟨h0, h1, by simpa [Nat.add_comm, Nat.add_assoc, Nat.add_left_comm] using h2⟩

/-- Within a chunk, every position reads the chunk's character. -/
theorem chunk_read (buf : List Char) (p : Nat) (s : List Char) (h : chunk buf p s)
    (k : Nat) (hk : k < s.length) : readChar buf (p + k) = s.getD k '\x00' := h k hk

theorem tokenizeString_congr (buf : List Char) (p q : Nat)
    (h : wsSkipIdx buf p = wsSkipIdx buf q) :
    tokenizeString buf p = tokenizeString buf q := by
  simp only [tokenizeString, h]

theorem wsSkipIdx_step (buf : List Char) (p : Nat)
    (h : isWhiteSpace (readChar buf p) = true) :
    wsSkipIdx buf p = wsSkipIdx buf (p + 1) := by
  have hp : p < buf.length := by
    by_contra hc
    rw [readChar_past_end (by omega)] at h
    simp [isWhiteSpace] at h
  have harith : buf.length + 1 - p = (buf.length - p) + 1 := by omega
  have harith2 : buf.length + 1 - (p + 1) = buf.length - p := by omega
  rw [wsSkipIdx, wsSkipIdx, harith, harith2, wsSkipGo, h]
  simp

/-- A whitespace byte before a token does not change the token. -/
theorem tokenizeString_ws (buf : List Char) (p : Nat)
    (h : readChar buf p = ' ') :
    tokenizeString buf p = tokenizeString buf (p + 1) :=
  tokenizeString_congr buf p (p + 1) (wsSkipIdx_step buf p (by rw [h]; decide))

theorem tok_lbrace (buf : List Char) (p : Nat) (h : readChar buf p = '{') :
    tokenizeString buf p = some ({ Ty := .OBJECT_START }, p + 1) := by
  have hws : isWhiteSpace (readChar buf p) = false := by rw [h]; decide
  simp only [tokenizeString, wsSkipIdx_eq_self buf p hws, h]
  simp

theorem tok_rbrace (buf : List Char) (p : Nat) (h : readChar buf p = '}') :
    tokenizeString buf p = some ({ Ty := .OBJECT_END }, p + 1) := by
  have hws : isWhiteSpace (readChar buf p) = false := by rw [h]; decide
  simp only [tokenizeString, wsSkipIdx_eq_self buf p hws, h]
  simp

theorem tok_lbrack (buf : List Char) (p : Nat) (h : readChar buf p = '[') :
    tokenizeString buf p = some ({ Ty := .ARRAY_START }, p + 1) := by
  have hws : isWhiteSpace (readChar buf p) = false := by rw [h]; decide
  simp only [tokenizeString, wsSkipIdx_eq_self buf p hws, h]
  simp

theorem tok_rbrack (buf : List Char) (p : Nat) (h : readChar buf p = ']') :
    tokenizeString buf p = some ({ Ty := .ARRAY_END }, p + 1) := by
  have hws : isWhiteSpace (readChar buf p) = false := by rw [h]; decide
  simp only [tokenizeString, wsSkipIdx_eq_self buf p hws, h]
  simp

theorem tok_comma (buf : List Char) (p : Nat) (h : readChar buf p = ',') :
    tokenizeString buf p = some ({ Ty := .COMMA }, p + 1) := by
  have hws : isWhiteSpace (readChar buf p) = false := by rw [h]; decide
  simp only [tokenizeString, wsSkipIdx_eq_self buf p hws, h]
  simp

theorem tok_colon (buf : List Char) (p : Nat) (h : readChar buf p = ':') :
    tokenizeString buf p = some ({ Ty := .COLON }, p + 1) := by
  have hws : isWhiteSpace (readChar buf p) = false := by rw [h]; decide
  simp only [tokenizeString, wsSkipIdx_eq_self buf p hws, h]
  simp

theorem matchLit_of_chunk (buf : List Char) :
    ∀ (lit : List Char) (i : Nat), chunk buf i lit → matchLit buf i lit = true := by
  intro lit
  induction lit with
  | nil => intro i _; rfl
  | cons c cs ih =>
    intro i h
    rw [chunk_cons_iff] at h
    rw [matchLit]
    simp [h.1, ih (i + 1) h.2]

theorem tok_true (buf : List Char) (p : Nat)
    (h : chunk buf p ['t', 'r', 'u', 'e']) :
    tokenizeString buf p = some ({ Ty := .BOOLEAN, Str := "true" }, p + 4) := by
  have h0 : readChar buf p = 't' := ((chunk_cons_iff _ _ _ _).mp h).1
  have hws : isWhiteSpace (readChar buf p) = false := by rw [h0]; decide
  have hml : matchLit buf p "true".toList = true := matchLit_of_chunk buf _ p h
  simp only [tokenizeString, wsSkipIdx_eq_self buf p hws, h0, hml]
  simp [isNumber]

theorem tok_false (buf : List Char) (p : Nat)
    (h : chunk buf p ['f', 'a', 'l', 's', 'e']) :
    tokenizeString buf p = some ({ Ty := .BOOLEAN, Str := "false" }, p + 5) := by
  have h0 : readChar buf p = 'f' := ((chunk_cons_iff _ _ _ _).mp h).1
  have hws : isWhiteSpace (readChar buf p) = false := by rw [h0]; decide
  have hml : matchLit buf p "false".toList = true := matchLit_of_chunk buf _ p h
  simp only [tokenizeString, wsSkipIdx_eq_self buf p hws, h0, hml]
  simp [isNumber]

theorem tok_null (buf : List Char) (p : Nat)
    (h : chunk buf p ['n', 'u', 'l', 'l']) :
    tokenizeString buf p = some ({ Ty := .NULL, Str := "null" }, p + 4) := by
  have h0 : readChar buf p = 'n' := ((chunk_cons_iff _ _ _ _).mp h).1
  have hws : isWhiteSpace (readChar buf p) = false := by rw [h0]; decide
  have hml : matchLit buf p "null".toList = true := matchLit_of_chunk buf _ p h
  simp only [tokenizeString, wsSkipIdx_eq_self buf p hws, h0, hml]
  simp [isNumber]

/-- A string token over a chunk `"s"`: the raw bytes of `s` come back
verbatim. -/
theorem tok_string (buf : List Char) (p : Nat) (s : List Char)
    (hchunk : chunk buf p (('"' :: s) ++ ['"'])) (hlen : s.length < 64)
    (hok : ∀ c ∈ s, c ≠ '"' ∧ c ≠ '\x00') :
    tokenizeString buf p = some ({ Ty := .STRING, Str := String.mk s }, p + s.length + 2) := by
  rw [chunk_append_iff] at hchunk
  obtain ⟨hhead, hq2⟩ := hchunk
  rw [chunk_cons_iff] at hhead
  obtain ⟨h0, hs⟩ := hhead
  have hq2' : readChar buf (p + 1 + s.length) = '"' := by
    have := ((chunk_cons_iff _ _ _ _).mp hq2).1
    have harith : p + ('"' :: s).length = p + 1 + s.length := by simp; omega
    rwa [harith] at this
  have hmid : ∀ k, p < k → k < p + 1 + s.length →
      readChar buf k ≠ '"' ∧ readChar buf k ≠ '\x00' := by
    intro k hk1 hk2
    have hk3 : k - (p + 1) < s.length := by omega
    have := hs (k - (p + 1)) hk3
    have harr : p + 1 + (k - (p + 1)) = k := by omega
    rw [harr] at this
    rw [this]
    have hmem : s.getD (k - (p + 1)) '\x00' ∈ s := by
      rw [List.getD_eq_getElem s '\x00' hk3]
      exact List.getElem_mem hk3
    exact hok _ hmem
  have hspec := (tokenize_string_spec buf p h0).2 (p + 1 + s.length) (by omega) hq2' hmid
    (by omega)
  have hstr : String.mk ((List.range (p + 1 + s.length - (p + 1))).map
      fun k => readChar buf (p + 1 + k)) = String.mk s := by
    congr 1
    have hrange : p + 1 + s.length - (p + 1) = s.length := by omega
    rw [hrange]
    apply List.ext_getElem
    · simp
    · intro i h1 h2
      simp only [List.getElem_map, List.getElem_range]
      rw [hs i (by simpa using h2)]
      exact List.getD_eq_getElem s '\x00' (by simpa using h2)
  rw [hspec, hstr]
  have harith : p + 1 + s.length + 1 = p + s.length + 2 := by omega
  rw [harith]

theorem lt_length_of_not_nul {buf : List Char} {i : Nat}
    (h : readChar buf i ≠ '\x00') : i < buf.length :=
  lt_length_of_readChar_ne buf i h

theorem numEndGo_spec (buf : List Char) :
    ∀ (f i j : Nat), i ≤ j → j ≤ i + f →
    (∀ k, i ≤ k → k < j →
      (isNumber (readChar buf k) = true ∨ readChar buf k = '.' ∨
        readChar buf k = 'e' ∨ readChar buf k = '-')) →
    ¬ (isNumber (readChar buf j) = true ∨ readChar buf j = '.' ∨
        readChar buf j = 'e' ∨ readChar buf j = '-') →
    numEndGo buf f i = j := by
  intro f
  induction f with
  | zero =>
    intro i j h1 h2 _ _
    have h3 : j = i := by omega
    subst h3
    rfl
  | succ f ih =>
    intro i j h1 h2 hmid hstop
    by_cases hij : i = j
    · subst hij
      rw [numEndGo, if_neg hstop]
    · have hlt : i < j := by omega
      rw [numEndGo, if_pos (hmid i le_rfl hlt)]
      exact ih (i + 1) j (by omega) (by omega) (fun k hk1 hk2 => hmid k (by omega) hk2) hstop

theorem numEnd_spec (buf : List Char) (i j : Nat) (h1 : i ≤ j) (hj : j ≤ buf.length)
    (hmid : ∀ k, i ≤ k → k < j →
      (isNumber (readChar buf k) = true ∨ readChar buf k = '.' ∨
        readChar buf k = 'e' ∨ readChar buf k = '-'))
    (hstop : ¬ (isNumber (readChar buf j) = true ∨ readChar buf j = '.' ∨
        readChar buf j = 'e' ∨ readChar buf j = '-')) :
    numEnd buf i = j :=
  numEndGo_spec buf (buf.length + 1 - i) i j h1 (by omega) hmid hstop

theorem isNumber_char_facts (c : Char) (h : isNumber c = true) :
    isWhiteSpace c = false ∧ c ≠ '{' ∧ c ≠ '}' ∧ c ≠ '[' ∧ c ≠ ']' ∧ c ≠ ',' ∧
      c ≠ ':' ∧ c ≠ '"' := by
  have hmem : c ∈ ['0', '1', '2', '3', '4', '5', '6', '7', '8', '9'] := by
    simp [isNumber] at h
    simp only [List.mem_cons, List.not_mem_nil, or_false]
    tauto
  fin_cases hmem <;>
    exact ⟨by decide, by decide, by decide, by decide, by decide, by decide, by decide,
      by decide⟩

/-- A number token over a chunk: the scanned run comes back verbatim.  The
first byte is a digit or `-`, the rest of the run is made of number
characters, and the byte after the run is a non-number delimiter other
than NUL (in rendered text: `,`, `]` or `}`). -/
theorem tok_number (buf : List Char) (p : Nat) (c0 : Char) (ds : List Char)
    (hchunk : chunk buf p (c0 :: ds))
    (hc0 : isNumber c0 = true ∨ c0 = '-')
    (hds : ∀ c ∈ ds, isNumber c = true ∨ c = '.' ∨ c = 'e' ∨ c = '-')
    (hdelim : ¬ (isNumber (readChar buf (p + (c0 :: ds).length)) = true ∨
        readChar buf (p + (c0 :: ds).length) = '.' ∨
        readChar buf (p + (c0 :: ds).length) = 'e' ∨
        readChar buf (p + (c0 :: ds).length) = '-'))
    (hnul : readChar buf (p + (c0 :: ds).length) ≠ '\x00')
    (hlen : (c0 :: ds).length < 64) :
    tokenizeString buf p =
      some ({ Ty := .NUMBER, Str := String.mk (c0 :: ds) }, p + (c0 :: ds).length) := by
  rw [chunk_cons_iff] at hchunk
  obtain ⟨h0, hs⟩ := hchunk
  have hws : isWhiteSpace (readChar buf p) = false := by
    rw [h0]
    rcases hc0 with h | h
    · exact (isNumber_char_facts c0 h).1
    · subst h
      decide
  have hjlen : p + (c0 :: ds).length ≤ buf.length := by
    have := lt_length_of_not_nul hnul
    omega
  have hnum : numEnd buf (p + 1) = p + (c0 :: ds).length := by
    apply numEnd_spec buf (p + 1) _ (by simp) hjlen
    · intro k hk1 hk2
      have hk3 : k - (p + 1) < ds.length := by simp at hk2; omega
      have := hs (k - (p + 1)) hk3
      have harr : p + 1 + (k - (p + 1)) = k := by omega
      rw [harr] at this
      rw [this]
      have hmem : ds.getD (k - (p + 1)) '\x00' ∈ ds := by
        rw [List.getD_eq_getElem ds '\x00' hk3]
        exact List.getElem_mem hk3
      exact hds _ hmem
    · exact hdelim
  have hsub : subStr buf p (p + (c0 :: ds).length) = String.mk (c0 :: ds) := by
    rw [subStr]
    congr 1
    have hrange : p + (c0 :: ds).length - p = (c0 :: ds).length := by omega
    rw [hrange]
    apply List.ext_getElem
    · simp
    · intro i hi1 hi2
      simp only [List.getElem_map, List.getElem_range]
      have hcc : chunk buf p (c0 :: ds) := by
        rw [chunk_cons_iff]
        exact ⟨h0, hs⟩
      have hilen : i < (c0 :: ds).length := by simpa using hi2
      rw [hcc i hilen]
      exact List.getD_eq_getElem _ '\x00' hilen
  have hread : readChar buf (numEnd buf (p + 1)) ≠ '\x00' := by
    rw [hnum]
    exact hnul
  have hno : c0 ≠ '{' ∧ c0 ≠ '}' ∧ c0 ≠ '[' ∧ c0 ≠ ']' ∧ c0 ≠ ',' ∧ c0 ≠ ':' ∧
      c0 ≠ '"' := by
    rcases hc0 with h | h
    · exact (isNumber_char_facts c0 h).2
    · subst h
      exact ⟨by decide, by decide, by decide, by decide, by decide, by decide, by decide⟩
  obtain ⟨hn1, hn2, hn3, hn4, hn5, hn6, hn7⟩ := hno
  simp only [tokenizeString, wsSkipIdx_eq_self buf p hws, h0]
  rw [if_neg hn1, if_neg hn2, if_neg hn3, if_neg hn4, if_neg hn5, if_neg hn6, if_neg hn7,
    if_pos hc0, if_neg hread, hnum]
  have hl64 : p + (c0 :: ds).length - p < 64 := by omega
  rw [if_pos hl64, hsub]

/-! ### The parser on rendered documents -/

theorem chunk_congr {buf : List Char} {p : Nat} {s t : List Char} (h : s = t)
    (hc : chunk buf p s) : chunk buf p t := h ▸ hc

theorem strOK_extract {s : String} (h : strOK s = true) :
    s.toList.length < 64 ∧ ∀ c ∈ s.toList, c ≠ '"' ∧ c ≠ '\x00' := by
  rw [strOK, Bool.and_eq_true, List.all_eq_true] at h
  refine ⟨by simpa using h.1, ?_⟩
  intro c hc
  have := h.2 c hc
  simpa using this

theorem parseMembers_congr (buf : List Char) (size : Nat) (i j : Nat)
    (h : tokenizeString buf i = tokenizeString buf j) :
    ∀ (g : Nat) (res : json_object),
      parseMembers g buf size res i = parseMembers g buf size res j := by
  intro g res
  cases g with
  | zero => simp [parseMembers]
  | succ g => simp only [parseMembers, h]

theorem arrayPass1_congr (buf : List Char) (size : Nat) (i j : Nat)
    (h : tokenizeString buf i = tokenizeString buf j) :
    ∀ (g n : Nat), arrayPass1 g buf size i n = arrayPass1 g buf size j n := by
  intro g n
  cases g with
  | zero => simp [arrayPass1]
  | succ g => simp only [arrayPass1, h]

theorem arrayPass2_congr (buf : List Char) (size : Nat) (i j : Nat)
    (h : tokenizeString buf i = tokenizeString buf j) :
    ∀ (g : Nat), arrayPass2 g buf size i = arrayPass2 g buf size j := by
  intro g
  cases g with
  | zero => simp [arrayPass2]
  | succ g => simp only [arrayPass2, h]

/-- The key-and-colon prefix of one member: `"key" : ` tokenizes as a
string token then a colon token. -/
theorem member_prefix_steps (buf : List Char) (p : Nat) (k : String)
    (hk : strOK k = true)
    (hchunk : chunk buf p ('"' :: k.toList ++ ['"', ' ', ':', ' '])) :
    tokenizeString buf p =
      some ({ Ty := .STRING, Str := k }, p + k.toList.length + 2) ∧
    tokenizeString buf (p + k.toList.length + 2) =
      some ({ Ty := .COLON }, p + k.toList.length + 4) := by
  obtain ⟨hlen, hok⟩ := strOK_extract hk
  have hsplit : ('"' :: k.toList ++ ['"', ' ', ':', ' ']) =
      (('"' :: k.toList) ++ ['"']) ++ [' ', ':', ' '] := by simp
  have hc2 := chunk_congr hsplit hchunk
  rw [chunk_append_iff] at hc2
  obtain ⟨hkey, htail⟩ := hc2
  have hklen : (('"' :: k.toList) ++ ['"']).length = k.toList.length + 2 := by simp
  rw [hklen] at htail
  rw [chunk_cons_iff] at htail
  obtain ⟨hsp, htail⟩ := htail
  rw [chunk_cons_iff] at htail
  obtain ⟨hcolon, htail⟩ := htail
  have hstr := tok_string buf p k.toList hkey hlen hok
  have hmk : String.mk k.toList = k := rfl
  rw [hmk] at hstr
  have e1 : p + (k.toList.length + 2) = p + k.toList.length + 2 := by omega
  rw [e1] at hsp
  have e2 : p + (k.toList.length + 2) + 1 = p + k.toList.length + 3 := by omega
  rw [e2] at hcolon
  refine ⟨hstr, ?_⟩
  rw [tokenizeString_ws buf _ hsp]
  have e3 : p + k.toList.length + 2 + 1 = p + k.toList.length + 3 := by omega
  rw [e3, tok_colon buf _ hcolon]

/-- What `parseMembers` must do on the rendering of a non-empty member
list followed by `}`. -/
def MLstmt (ms : jmember_list) : Prop :=
  ∀ (buf : List Char) (size p : Nat) (res : json_object),
    chunk buf p (renderMembers ms ++ ['}']) →
    p + (renderMembers ms).length + 1 ≤ size →
    ∃ N, ∀ g, N ≤ g →
      parseMembers g buf size res p =
        some ({ First := res.First ++ docMembers ms, IsValid := res.IsValid },
          p + (renderMembers ms).length + 1)

/-- What array pass 1 must do on the rendering of an element list
followed by `]`. -/
def E1stmt (es : jelem_list) : Prop :=
  ∀ (buf : List Char) (size p n0 : Nat),
    chunk buf p (renderElems es ++ [']']) →
    p + (renderElems es).length + 1 ≤ size →
    ∃ N, ∀ g, N ≤ g →
      arrayPass1 g buf size p n0 =
        some (.inr (n0 + elemCount es, p + (renderElems es).length + 1))

/-- What array pass 2 must do on the same rendering. -/
def E2stmt (es : jelem_list) : Prop :=
  ∀ (buf : List Char) (size p : Nat),
    chunk buf p (renderElems es ++ [']']) →
    p + (renderElems es).length + 1 ≤ size →
    ∃ N, ∀ g, N ≤ g →
      arrayPass2 g buf size p =
        some (.inr (docElems es, p + (renderElems es).length + 1))

/-- A member list's `MLstmt` lifts to `parseStringToJson` on the braced
rendering. -/
theorem parse_object_render (ms : jmember_list) (hML : MLstmt ms)
    (buf : List Char) (size p : Nat)
    (hchunk : chunk buf p (('{' :: renderMembers ms) ++ ['}']))
    (hsize : p + (renderMembers ms).length + 2 ≤ size) :
    ∃ N, ∀ g, N ≤ g →
      parseStringToJson g buf size p =
        some ({ First := docMembers ms, IsValid := true },
          p + (renderMembers ms).length + 2) := by
  rw [chunk_append_iff, chunk_cons_iff] at hchunk
  obtain ⟨⟨hbr, hmem⟩, hend⟩ := hchunk
  have hmem2 : chunk buf (p + 1) (renderMembers ms ++ ['}']) := by
    rw [chunk_append_iff]
    refine ⟨hmem, ?_⟩
    have harith : p + 1 + (renderMembers ms).length = p + ('{' :: renderMembers ms).length := by
      simp
      omega
    rw [harith]
    exact hend
  obtain ⟨N, hN⟩ := hML buf size (p + 1) {} hmem2 (by omega)
  refine ⟨N + 2, ?_⟩
  intro g hg
  match g, hg with
  | g + 1, _ =>
    rw [parseStringToJson]
    match g, (by omega : N + 1 ≤ g + 1) with
    | g + 1, _ =>
      rw [parseOuter]
      rw [if_pos (by omega : p < size)]
      rw [tok_lbrace buf p hbr]
      simp only
      have := hN g (by omega)
      rw [this]
      have harith : p + 1 + (renderMembers ms).length + 1 = p + (renderMembers ms).length + 2 := by
        omega
      rw [harith]
      rfl

/-! ### Building one member / one element -/

/-- The tail-append loop appends at the end of the list. -/
theorem appendJsonMember_eq (l : List json_member) (m : json_member) :
    appendJsonMember l m = l ++ [m] := by
  induction l with
  | nil => rfl
  | cons a t ih => rw [appendJsonMember, ih]; rfl

/-- Pass 1's element count equals the length of pass 2's element list. -/
theorem elemCount_eq_length_aux :
    ∀ (n : Nat) (es : jelem_list), sizeOf es ≤ n →
      elemCount es = (docElems es).length := by
  intro n
  induction n with
  | zero => intro es hs; cases es <;> simp at hs
  | succ n ih =>
    intro es hs
    cases es with
    | jnil => simp [elemCount, docElems]
    | jcons v rest =>
      have hr := ih rest (by simp at hs; omega)
      simp [elemCount, docElems, hr]

theorem elemCount_eq_length (es : jelem_list) :
    elemCount es = (docElems es).length :=
  elemCount_eq_length_aux (sizeOf es) es le_rfl

/-- The text of `printf("%d", n)` is a `-`-or-digit head followed by
digits. -/
theorem intRepr_shape (n : Int) : ∃ c0 ds, (intRepr n).toList = c0 :: ds ∧
    (isNumber c0 = true ∨ c0 = '-') ∧ ∀ c ∈ ds, isNumber c = true := by
  rw [intRepr]
  by_cases hn : n < 0
  · rw [if_pos hn]
    have htl : ("-" ++ natRepr n.natAbs).toList = '-' :: (natRepr n.natAbs).data := by
      simp [String.toList]
    exact ⟨'-', (natRepr n.natAbs).data, htl, Or.inr rfl,
      fun c hc => natRepr_digits n.natAbs c hc⟩
  · rw [if_neg hn]
    obtain ⟨c, t, hct⟩ := List.exists_cons_of_ne_nil (natRepr_ne_nil n.natAbs)
    refine ⟨c, t, hct, Or.inl (natRepr_digits n.natAbs c (by rw [hct]; simp)), ?_⟩
    intro d hd
    exact natRepr_digits n.natAbs d (by rw [hct]; exact List.mem_cons_of_mem _ hd)

/-- The delimiter after a rendered value is not a number character and not
NUL. -/
theorem delim_facts {c : Char} (h : c = ',' ∨ c = '}' ∨ c = ']') :
    ¬(isNumber c = true ∨ c = '.' ∨ c = 'e' ∨ c = '-') ∧ c ≠ '\x00' := by
  rcases h with h | h | h <;> subst h <;> exact ⟨by decide, by decide⟩

/-- One well-formed element at `pv` in both array passes: pass 1 counts it
and moves past, pass 2 prepends `docValue v` to the tail's elements. -/
theorem elem_step (v : jdoc_value) (hwf : wfV v = true)
    (hna : ∀ es, v ≠ jdoc_value.jarr es)
    (hOB : ∀ ms, v = jdoc_value.jobj ms → MLstmt ms)
    (buf : List Char) (size pv : Nat)
    (hchunk : chunk buf pv (renderValue v))
    (hdelim : readChar buf (pv + (renderValue v).length) = ',' ∨
      readChar buf (pv + (renderValue v).length) = '}' ∨
      readChar buf (pv + (renderValue v).length) = ']')
    (hsize : pv + (renderValue v).length ≤ size) :
    ∃ N, ∀ g, N ≤ g →
      (∀ n, arrayPass1 (g + 1) buf size pv n =
        arrayPass1 g buf size (pv + (renderValue v).length) (n + 1)) ∧
      (arrayPass2 (g + 1) buf size pv =
        match arrayPass2 g buf size (pv + (renderValue v).length) with
        | none => none
        | some (.inl ibad) => some (.inl ibad)
        | some (.inr (vs, iE)) => some (.inr (docValue v :: vs, iE))) := by
  obtain ⟨hdel4, hdelnul⟩ := delim_facts hdelim
  cases v with
  | jint m =>
    obtain ⟨c0, ds, hsh, hc0, hds⟩ := intRepr_shape m
    rw [wfV] at hwf
    simp only [Bool.and_eq_true, decide_eq_true_eq] at hwf
    have hLeq : (renderValue (jdoc_value.jint m)).length = (c0 :: ds).length := by
      simp only [renderValue]; rw [hsh]
    have hchunk' : chunk buf pv (c0 :: ds) :=
      chunk_congr (by simp only [renderValue]; rw [hsh]) hchunk
    have htok := tok_number buf pv c0 ds hchunk' hc0
      (fun c hc => Or.inl (hds c hc))
      (by rw [← hLeq]; exact hdel4) (by rw [← hLeq]; exact hdelnul)
      (by rw [← hsh]; exact hwf.2)
    have hstr : String.mk (c0 :: ds) = intRepr m := by rw [← hsh]; rfl
    refine ⟨0, fun g _ => ⟨?_, ?_⟩⟩
    · intro n
      simp only [arrayPass1, htok, hLeq]
    · simp only [arrayPass2, htok, hLeq, hstr, atofQ_intRepr, docValue]
  | jstr s =>
    rw [wfV] at hwf
    obtain ⟨hlen, hok⟩ := strOK_extract hwf
    have hchunk' : chunk buf pv (('"' :: s.toList) ++ ['"']) :=
      chunk_congr (by simp [renderValue]) hchunk
    have htok := tok_string buf pv s.toList hchunk' hlen hok
    have hmk : String.mk s.toList = s := rfl
    rw [hmk] at htok
    have hLeq : pv + s.toList.length + 2 = pv + (renderValue (jdoc_value.jstr s)).length := by
      simp [renderValue]; omega
    rw [hLeq] at htok
    refine ⟨0, fun g _ => ⟨?_, ?_⟩⟩
    · intro n
      simp only [arrayPass1, htok]
    · simp only [arrayPass2, htok, docValue]
  | jbool b =>
    cases b with
    | true =>
      have hchunk' : chunk buf pv ['t', 'r', 'u', 'e'] :=
        chunk_congr (by simp [renderValue]) hchunk
      have htok := tok_true buf pv hchunk'
      have hLeq : pv + 4 = pv + (renderValue (jdoc_value.jbool true)).length := by
        simp [renderValue]
      rw [hLeq] at htok
      refine ⟨0, fun g _ => ⟨?_, ?_⟩⟩
      · intro n
        simp only [arrayPass1, htok]
      · simp only [arrayPass2, htok, docValue]
        rfl
    | false =>
      have hchunk' : chunk buf pv ['f', 'a', 'l', 's', 'e'] :=
        chunk_congr (by simp [renderValue]) hchunk
      have htok := tok_false buf pv hchunk'
      have hLeq : pv + 5 = pv + (renderValue (jdoc_value.jbool false)).length := by
        simp [renderValue]
      rw [hLeq] at htok
      refine ⟨0, fun g _ => ⟨?_, ?_⟩⟩
      · intro n
        simp only [arrayPass1, htok]
      · simp only [arrayPass2, htok, docValue]
        rfl
  | jnull =>
    have hchunk' : chunk buf pv ['n', 'u', 'l', 'l'] :=
      chunk_congr (by simp [renderValue]) hchunk
    have htok := tok_null buf pv hchunk'
    have hLeq : pv + 4 = pv + (renderValue jdoc_value.jnull).length := by
      simp [renderValue]
    rw [hLeq] at htok
    refine ⟨0, fun g _ => ⟨?_, ?_⟩⟩
    · intro n
      simp only [arrayPass1, htok]
    · simp only [arrayPass2, htok, docValue]
  | jobj ms =>
    have hML := hOB ms rfl
    have hchunk' : chunk buf pv (('{' :: renderMembers ms) ++ ['}']) :=
      chunk_congr (by simp [renderValue]) hchunk
    have h0 : readChar buf pv = '{' := by
      have := (chunk_append_iff buf pv _ _).mp hchunk'
      exact ((chunk_cons_iff _ _ _ _).mp this.1).1
    have htok := tok_lbrace buf pv h0
    have hsize' : pv + (renderMembers ms).length + 2 ≤ size := by
      have : (renderValue (jdoc_value.jobj ms)).length = (renderMembers ms).length + 2 := by
        simp [renderValue]
      omega
    obtain ⟨Nob, hNob⟩ := parse_object_render ms hML buf size pv hchunk' hsize'
    have hLeq : pv + (renderMembers ms).length + 2 =
        pv + (renderValue (jdoc_value.jobj ms)).length := by
      simp [renderValue]; omega
    refine ⟨Nob, fun g hg => ⟨?_, ?_⟩⟩
    · intro n
      simp only [arrayPass1, htok]
      have hidx : pv + 1 - 1 = pv := by omega
      rw [hidx, hNob g hg, ← hLeq]
    · simp only [arrayPass2, htok]
      have hidx : pv + 1 - 1 = pv := by omega
      rw [hidx, hNob g hg, ← hLeq]
      simp [docValue]
  | jarr es => exact absurd rfl (hna es)

/-- One well-formed member value at `pv` in the member loop's value
switch: the value tokenizes, and `parseValue` appends `(key, docValue v)`
and hands the cursor after the value to the comma step. -/
theorem parseValue_render (v : jdoc_value) (hwf : wfV v = true)
    (hOB : ∀ ms, v = jdoc_value.jobj ms → MLstmt ms)
    (hARR : ∀ es, v = jdoc_value.jarr es → E1stmt es ∧ E2stmt es)
    (buf : List Char) (size pv : Nat)
    (hchunk : chunk buf pv (renderValue v))
    (hdelim : readChar buf (pv + (renderValue v).length) = ',' ∨
      readChar buf (pv + (renderValue v).length) = '}' ∨
      readChar buf (pv + (renderValue v).length) = ']')
    (hsize : pv + (renderValue v).length ≤ size) :
    ∃ valTok i3, tokenizeString buf pv = some (valTok, i3) ∧
      ∃ N, ∀ g, N ≤ g → ∀ (res : json_object) (key : String),
        parseValue (g + 1) buf size res key valTok i3 =
          parseComma g buf size
            { res with First := res.First ++ [(key, docValue v)] }
            (pv + (renderValue v).length) := by
  obtain ⟨hdel4, hdelnul⟩ := delim_facts hdelim
  cases v with
  | jint m =>
    obtain ⟨c0, ds, hsh, hc0, hds⟩ := intRepr_shape m
    rw [wfV] at hwf
    simp only [Bool.and_eq_true, decide_eq_true_eq] at hwf
    have hLeq : (renderValue (jdoc_value.jint m)).length = (c0 :: ds).length := by
      simp only [renderValue]; rw [hsh]
    have hchunk' : chunk buf pv (c0 :: ds) :=
      chunk_congr (by simp only [renderValue]; rw [hsh]) hchunk
    have htok := tok_number buf pv c0 ds hchunk' hc0
      (fun c hc => Or.inl (hds c hc))
      (by rw [← hLeq]; exact hdel4) (by rw [← hLeq]; exact hdelnul)
      (by rw [← hsh]; exact hwf.2)
    have hstr : String.mk (c0 :: ds) = intRepr m := by rw [← hsh]; rfl
    rw [← hLeq] at htok
    refine ⟨_, _, htok, 0, ?_⟩
    intro g _ res key
    simp only [parseValue, hstr, atofQ_intRepr, addJsonMemberNumber, appendJsonMember_eq,
      docValue]
  | jstr s =>
    rw [wfV] at hwf
    obtain ⟨hlen, hok⟩ := strOK_extract hwf
    have hchunk' : chunk buf pv (('"' :: s.toList) ++ ['"']) :=
      chunk_congr (by simp [renderValue]) hchunk
    have htok := tok_string buf pv s.toList hchunk' hlen hok
    have hmk : String.mk s.toList = s := rfl
    rw [hmk] at htok
    have hLeq : pv + s.toList.length + 2 = pv + (renderValue (jdoc_value.jstr s)).length := by
      simp [renderValue]; omega
    rw [hLeq] at htok
    refine ⟨_, _, htok, 0, ?_⟩
    intro g _ res key
    simp only [parseValue, addJsonMemberString, appendJsonMember_eq, docValue]
  | jbool b =>
    cases b with
    | true =>
      have hchunk' : chunk buf pv ['t', 'r', 'u', 'e'] :=
        chunk_congr (by simp [renderValue]) hchunk
      have htok := tok_true buf pv hchunk'
      have hLeq : pv + 4 = pv + (renderValue (jdoc_value.jbool true)).length := by
        simp [renderValue]
      rw [hLeq] at htok
      refine ⟨_, _, htok, 0, ?_⟩
      intro g _ res key
      have hlit : isTrueLit "true" = true := by decide
      simp only [parseValue, hlit, addJsonMemberBoolean, appendJsonMember_eq, docValue]
    | false =>
      have hchunk' : chunk buf pv ['f', 'a', 'l', 's', 'e'] :=
        chunk_congr (by simp [renderValue]) hchunk
      have htok := tok_false buf pv hchunk'
      have hLeq : pv + 5 = pv + (renderValue (jdoc_value.jbool false)).length := by
        simp [renderValue]
      rw [hLeq] at htok
      refine ⟨_, _, htok, 0, ?_⟩
      intro g _ res key
      have hlit : isTrueLit "false" = false := by decide
      simp only [parseValue, hlit, addJsonMemberBoolean, appendJsonMember_eq, docValue]
  | jnull =>
    have hchunk' : chunk buf pv ['n', 'u', 'l', 'l'] :=
      chunk_congr (by simp [renderValue]) hchunk
    have htok := tok_null buf pv hchunk'
    have hLeq : pv + 4 = pv + (renderValue jdoc_value.jnull).length := by
      simp [renderValue]
    rw [hLeq] at htok
    refine ⟨_, _, htok, 0, ?_⟩
    intro g _ res key
    simp only [parseValue, addJsonMemberNull, appendJsonMember_eq, docValue]
  | jobj ms =>
    rw [wfV] at hwf
    simp only [Bool.and_eq_true] at hwf
    have hML := hOB ms rfl
    have hchunk' : chunk buf pv (('{' :: renderMembers ms) ++ ['}']) :=
      chunk_congr (by simp [renderValue]) hchunk
    have h0 : readChar buf pv = '{' := by
      have := (chunk_append_iff buf pv _ _).mp hchunk'
      exact ((chunk_cons_iff _ _ _ _).mp this.1).1
    have htok := tok_lbrace buf pv h0
    have hsize' : pv + (renderMembers ms).length + 2 ≤ size := by
      have : (renderValue (jdoc_value.jobj ms)).length = (renderMembers ms).length + 2 := by
        simp [renderValue]
      omega
    obtain ⟨Nob, hNob⟩ := parse_object_render ms hML buf size pv hchunk' hsize'
    have hLeq : pv + (renderMembers ms).length + 2 =
        pv + (renderValue (jdoc_value.jobj ms)).length := by
      simp [renderValue]; omega
    cases ms with
    | nil => simp [isConsMs] at hwf
    | cons k1 v1 r1 =>
      refine ⟨_, _, htok, Nob, ?_⟩
      intro g hg res key
      simp only [parseValue]
      have hidx : pv + 1 - 1 = pv := by omega
      rw [hidx, hNob g hg, ← hLeq]
      simp only [addJsonMemberObject, docMembers, appendJsonMember_eq, docValue]
  | jarr es =>
    obtain ⟨hE1, hE2⟩ := hARR es rfl
    have hchunk' : chunk buf pv ('[' :: (renderElems es ++ [']'])) :=
      chunk_congr (by simp [renderValue]) hchunk
    rw [chunk_cons_iff] at hchunk'
    obtain ⟨h0, htail⟩ := hchunk'
    have htok := tok_lbrack buf pv h0
    have hlen : (renderValue (jdoc_value.jarr es)).length = (renderElems es).length + 2 := by
      simp [renderValue]
    obtain ⟨N1, h1⟩ := hE1 buf size (pv + 1) 0 htail (by omega)
    obtain ⟨N2, h2⟩ := hE2 buf size (pv + 1) htail (by omega)
    refine ⟨_, _, htok, max N1 N2, ?_⟩
    intro g hg res key
    simp only [parseValue]
    rw [h1 g (le_of_max_le_left hg), h2 g (le_of_max_le_right hg)]
    simp only [addJsonMemberArray]
    have hcnt : 0 + elemCount es = (docElems es).length := by
      rw [Nat.zero_add, elemCount_eq_length]
    rw [hcnt, List.take_length, ← elemCount_eq_length]
    have hpos : pv + 1 + (renderElems es).length + 1 =
        pv + (renderValue (jdoc_value.jarr es)).length := by
      rw [hlen]; omega
    rw [hpos]
    simp only [appendJsonMember_eq, docValue, Nat.zero_add]

/-- The member loop, both array passes and hence the whole parser behave
canonically on every rendered well-formed document (strong induction over
the document structure). -/
theorem parse_render_main :
    ∀ n : Nat,
      (∀ ms : jmember_list, sizeOf ms ≤ n → wfMs ms = true → isConsMs ms = true →
        MLstmt ms) ∧
      (∀ es : jelem_list, sizeOf es ≤ n → wfEs es = true → E1stmt es ∧ E2stmt es) := by
  intro n
  induction n with
  | zero =>
    constructor
    · intro ms hs
      cases ms <;> simp at hs
    · intro es hs
      cases es <;> simp at hs
  | succ n ihn =>
    obtain ⟨ihM, ihE⟩ := ihn
    constructor
    · intro ms hs hwf hcons
      cases ms with
      | nil => simp [isConsMs] at hcons
      | cons k v rest =>
        rw [wfMs] at hwf
        simp only [Bool.and_eq_true] at hwf
        obtain ⟨⟨hk, hv⟩, hrest⟩ := hwf
        have hsv : sizeOf v ≤ n := by simp at hs; omega
        have hsrest : sizeOf rest ≤ n := by simp at hs; omega
        have hOB : ∀ ms', v = jdoc_value.jobj ms' → MLstmt ms' := by
          intro ms' hveq
          subst hveq
          rw [wfV] at hv
          simp only [Bool.and_eq_true] at hv
          exact ihM ms' (by simp at hsv; omega) hv.2 hv.1
        have hARR : ∀ es, v = jdoc_value.jarr es → E1stmt es ∧ E2stmt es := by
          intro es hveq
          subst hveq
          rw [wfV] at hv
          exact ihE es (by simp at hsv; omega) hv
        intro buf size p res hchunk hsize
        cases rest with
        | nil =>
          have hsplit : renderMembers (jmember_list.cons k v jmember_list.nil) ++ ['}'] =
              ('"' :: k.toList ++ ['"', ' ', ':', ' ']) ++ (renderValue v ++ ['}']) := by
            simp [renderMembers]
          have hc := chunk_congr hsplit hchunk
          rw [chunk_append_iff] at hc
          obtain ⟨hpre, htail⟩ := hc
          have hplen : ('"' :: k.toList ++ ['"', ' ', ':', ' ']).length =
              k.toList.length + 5 := by simp
          rw [hplen, chunk_append_iff] at htail
          obtain ⟨hval, hbr⟩ := htail
          have hbrace : readChar buf (p + k.toList.length + 5 + (renderValue v).length) =
              '}' := by
            have h0 := ((chunk_cons_iff _ _ _ _).mp hbr).1
            have e : p + (k.toList.length + 5) + (renderValue v).length =
                p + k.toList.length + 5 + (renderValue v).length := by omega
            rwa [e] at h0
          have hpre2 := chunk_congr (show ('"' :: k.toList ++ ['"', ' ', ':', ' ']) =
              ('"' :: k.toList ++ ['"', ' ', ':']) ++ [' '] by simp) hpre
          rw [chunk_append_iff] at hpre2
          have hplen2 : ('"' :: k.toList ++ ['"', ' ', ':']).length =
              k.toList.length + 4 := by simp
          rw [hplen2] at hpre2
          have hspace : readChar buf (p + k.toList.length + 4) = ' ' := by
            have h0 := ((chunk_cons_iff _ _ _ _).mp hpre2.2).1
            have e : p + (k.toList.length + 4) = p + k.toList.length + 4 := by omega
            rwa [e] at h0
          obtain ⟨hkey, hcolon⟩ := member_prefix_steps buf p k hk hpre
          have hvchunk : chunk buf (p + k.toList.length + 5) (renderValue v) := by
            have e : p + (k.toList.length + 5) = p + k.toList.length + 5 := by omega
            rwa [e] at hval
          have hRlen : (renderMembers (jmember_list.cons k v jmember_list.nil)).length =
              k.toList.length + 5 + (renderValue v).length := by
            simp [renderMembers]
            omega
          have hsizev : p + k.toList.length + 5 + (renderValue v).length ≤ size := by
            rw [hRlen] at hsize
            omega
          obtain ⟨valTok, i3, htokV, Nv, hNv⟩ := parseValue_render v hv hOB hARR buf size
            (p + k.toList.length + 5) hvchunk (Or.inr (Or.inl hbrace)) hsizev
          have hws : tokenizeString buf (p + k.toList.length + 4) = some (valTok, i3) := by
            rw [tokenizeString_ws buf _ hspace]
            have e : p + k.toList.length + 4 + 1 = p + k.toList.length + 5 := by omega
            rw [e]
            exact htokV
          have hposEq : p +
              (renderMembers (jmember_list.cons k v jmember_list.nil)).length + 1 =
              p + k.toList.length + 5 + (renderValue v).length + 1 := by
            rw [hRlen]
            omega
          refine ⟨Nv + 3, ?_⟩
          intro g hg
          rw [hposEq]
          match g, hg with
          | g + 1, hg =>
            simp only [parseMembers, hkey]
            rw [if_neg (by simp :
              ¬(({ Ty := json_token_type.STRING, Str := k } : json_token).Ty ≠
                json_token_type.STRING))]
            simp only [hcolon]
            rw [if_neg (by simp :
              ¬(({ Ty := json_token_type.COLON } : json_token).Ty ≠
                json_token_type.COLON))]
            simp only [hws]
            match g, (show Nv + 2 ≤ g by omega) with
            | g + 1, hg2 =>
              rw [hNv g (by omega) res k]
              match g, (show Nv + 1 ≤ g by omega) with
              | g + 1, hg3 =>
                simp only [parseComma, tok_rbrace buf _ hbrace]
                rw [if_neg (by simp :
                  ¬(({ Ty := json_token_type.OBJECT_END } : json_token).Ty =
                    json_token_type.COMMA))]
                simp [docMembers]
        | cons k2 v2 rest2 =>
          have hsplit : renderMembers (jmember_list.cons k v
                (jmember_list.cons k2 v2 rest2)) ++ ['}'] =
              ('"' :: k.toList ++ ['"', ' ', ':', ' ']) ++ (renderValue v ++
                (',' :: ' ' :: (renderMembers (jmember_list.cons k2 v2 rest2) ++
                  ['}']))) := by
            simp [renderMembers]
          have hc := chunk_congr hsplit hchunk
          rw [chunk_append_iff] at hc
          obtain ⟨hpre, htail⟩ := hc
          have hplen : ('"' :: k.toList ++ ['"', ' ', ':', ' ']).length =
              k.toList.length + 5 := by simp
          rw [hplen, chunk_append_iff] at htail
          obtain ⟨hval, htail2⟩ := htail
          rw [chunk_cons_iff] at htail2
          obtain ⟨hcomma0, htail3⟩ := htail2
          rw [chunk_cons_iff] at htail3
          obtain ⟨hspace0, hrestc0⟩ := htail3
          have hcomma : readChar buf (p + k.toList.length + 5 + (renderValue v).length) =
              ',' := by
            have e : p + (k.toList.length + 5) + (renderValue v).length =
                p + k.toList.length + 5 + (renderValue v).length := by omega
            rwa [e] at hcomma0
          have hspace2 : readChar buf
              (p + k.toList.length + 5 + (renderValue v).length + 1) = ' ' := by
            have e : p + (k.toList.length + 5) + (renderValue v).length + 1 =
                p + k.toList.length + 5 + (renderValue v).length + 1 := by omega
            rwa [e] at hspace0
          have hrestc : chunk buf (p + k.toList.length + 5 + (renderValue v).length + 2)
              (renderMembers (jmember_list.cons k2 v2 rest2) ++ ['}']) := by
            have e : p + (k.toList.length + 5) + (renderValue v).length + 1 + 1 =
                p + k.toList.length + 5 + (renderValue v).length + 2 := by omega
            rwa [e] at hrestc0
          have hpre2 := chunk_congr (show ('"' :: k.toList ++ ['"', ' ', ':', ' ']) =
              ('"' :: k.toList ++ ['"', ' ', ':']) ++ [' '] by simp) hpre
          rw [chunk_append_iff] at hpre2
          have hplen2 : ('"' :: k.toList ++ ['"', ' ', ':']).length =
              k.toList.length + 4 := by simp
          rw [hplen2] at hpre2
          have hspace : readChar buf (p + k.toList.length + 4) = ' ' := by
            have h0 := ((chunk_cons_iff _ _ _ _).mp hpre2.2).1
            have e : p + (k.toList.length + 4) = p + k.toList.length + 4 := by omega
            rwa [e] at h0
          obtain ⟨hkey, hcolon⟩ := member_prefix_steps buf p k hk hpre
          have hvchunk : chunk buf (p + k.toList.length + 5) (renderValue v) := by
            have e : p + (k.toList.length + 5) = p + k.toList.length + 5 := by omega
            rwa [e] at hval
          have hRlen : (renderMembers (jmember_list.cons k v
                (jmember_list.cons k2 v2 rest2))).length =
              k.toList.length + 5 + (renderValue v).length + 2 +
                (renderMembers (jmember_list.cons k2 v2 rest2)).length := by
            simp [renderMembers]
            omega
          have hsizev : p + k.toList.length + 5 + (renderValue v).length ≤ size := by
            rw [hRlen] at hsize
            omega
          obtain ⟨valTok, i3, htokV, Nv, hNv⟩ := parseValue_render v hv hOB hARR buf size
            (p + k.toList.length + 5) hvchunk (Or.inl hcomma) hsizev
          have hws : tokenizeString buf (p + k.toList.length + 4) = some (valTok, i3) := by
            rw [tokenizeString_ws buf _ hspace]
            have e : p + k.toList.length + 4 + 1 = p + k.toList.length + 5 := by omega
            rw [e]
            exact htokV
          have hMLr := ihM (jmember_list.cons k2 v2 rest2) hsrest hrest
            (by simp [isConsMs])
          obtain ⟨Nr, hNr⟩ := hMLr buf size
            (p + k.toList.length + 5 + (renderValue v).length + 2)
            { First := res.First ++ [(k, docValue v)], IsValid := res.IsValid }
            hrestc (by rw [hRlen] at hsize; omega)
          have hwsTail : tokenizeString buf
              (p + k.toList.length + 5 + (renderValue v).length + 1) =
              tokenizeString buf
              (p + k.toList.length + 5 + (renderValue v).length + 2) := by
            rw [tokenizeString_ws buf _ hspace2]
          refine ⟨Nv + Nr + 3, ?_⟩
          intro g hg
          match g, hg with
          | g + 1, hg =>
            simp only [parseMembers, hkey]
            rw [if_neg (by simp :
              ¬(({ Ty := json_token_type.STRING, Str := k } : json_token).Ty ≠
                json_token_type.STRING))]
            simp only [hcolon]
            rw [if_neg (by simp :
              ¬(({ Ty := json_token_type.COLON } : json_token).Ty ≠
                json_token_type.COLON))]
            simp only [hws]
            match g, (show Nv + Nr + 2 ≤ g by omega) with
            | g + 1, hg2 =>
              rw [hNv g (by omega) res k]
              match g, (show Nr + 1 ≤ g by omega) with
              | g + 1, hg3 =>
                simp only [parseComma, tok_comma buf _ hcomma, if_true]
                rw [parseMembers_congr buf size _ _ hwsTail g _]
                rw [hNr g (by omega)]
                have hpos : p + (renderMembers (jmember_list.cons k v
                      (jmember_list.cons k2 v2 rest2))).length + 1 =
                    p + k.toList.length + 5 + (renderValue v).length + 2 +
                    (renderMembers (jmember_list.cons k2 v2 rest2)).length + 1 := by
                  rw [hRlen]
                  omega
                rw [hpos]
                simp [docMembers]
    · intro es hs hwf
      cases es with
      | jnil =>
        constructor
        · intro buf size p n0 hchunk hsize
          have hbr : readChar buf p = ']' := by
            have hc := chunk_congr
              (show renderElems jelem_list.jnil ++ [']'] = [']'] by simp [renderElems])
              hchunk
            exact ((chunk_cons_iff _ _ _ _).mp hc).1
          refine ⟨1, ?_⟩
          intro g hg
          match g, hg with
          | g + 1, _ =>
            simp only [arrayPass1, tok_rbrack buf p hbr]
            simp [elemCount, renderElems]
        · intro buf size p hchunk hsize
          have hbr : readChar buf p = ']' := by
            have hc := chunk_congr
              (show renderElems jelem_list.jnil ++ [']'] = [']'] by simp [renderElems])
              hchunk
            exact ((chunk_cons_iff _ _ _ _).mp hc).1
          refine ⟨1, ?_⟩
          intro g hg
          match g, hg with
          | g + 1, _ =>
            simp only [arrayPass2, tok_rbrack buf p hbr]
            simp [docElems, renderElems]
      | jcons v rest =>
        obtain ⟨hv, hrest⟩ := wfEs_extract hwf
        have hna : ∀ es', v ≠ jdoc_value.jarr es' := by
          intro es' hveq
          subst hveq
          simp [wfEs] at hwf
        have hsv : sizeOf v ≤ n := by simp at hs; omega
        have hsrest : sizeOf rest ≤ n := by simp at hs; omega
        have hOB : ∀ ms', v = jdoc_value.jobj ms' → MLstmt ms' := by
          intro ms' hveq
          subst hveq
          rw [wfV] at hv
          simp only [Bool.and_eq_true] at hv
          exact ihM ms' (by simp at hsv; omega) hv.2 hv.1
        cases rest with
        | jnil =>
          have hsplitE : renderElems (jelem_list.jcons v jelem_list.jnil) ++ [']'] =
              renderValue v ++ [']'] := by simp [renderElems]
          have hlenE : (renderElems (jelem_list.jcons v jelem_list.jnil)).length =
              (renderValue v).length := by simp [renderElems]
          constructor
          · intro buf size p n0 hchunk hsize
            have hc := chunk_congr hsplitE hchunk
            rw [chunk_append_iff] at hc
            obtain ⟨hval, hbr⟩ := hc
            have hbrack : readChar buf (p + (renderValue v).length) = ']' :=
              ((chunk_cons_iff _ _ _ _).mp hbr).1
            obtain ⟨Ne, hNe⟩ := elem_step v hv hna hOB buf size p hval
              (Or.inr (Or.inr hbrack)) (by rw [hlenE] at hsize; omega)
            refine ⟨Ne + 2, ?_⟩
            intro g hg
            match g, hg with
            | g + 1, hg =>
              rw [(hNe g (by omega)).1 n0]
              match g, (show 1 ≤ g by omega) with
              | g + 1, _ =>
                simp only [arrayPass1, tok_rbrack buf _ hbrack]
                have e1 : n0 + 1 = n0 + elemCount (jelem_list.jcons v jelem_list.jnil) := by
                  simp [elemCount]
                have e2 : p + (renderValue v).length + 1 =
                    p + (renderElems (jelem_list.jcons v jelem_list.jnil)).length + 1 := by
                  rw [hlenE]
                rw [e1, e2]
          · intro buf size p hchunk hsize
            have hc := chunk_congr hsplitE hchunk
            rw [chunk_append_iff] at hc
            obtain ⟨hval, hbr⟩ := hc
            have hbrack : readChar buf (p + (renderValue v).length) = ']' :=
              ((chunk_cons_iff _ _ _ _).mp hbr).1
            obtain ⟨Ne, hNe⟩ := elem_step v hv hna hOB buf size p hval
              (Or.inr (Or.inr hbrack)) (by rw [hlenE] at hsize; omega)
            refine ⟨Ne + 2, ?_⟩
            intro g hg
            match g, hg with
            | g + 1, hg =>
              rw [(hNe g (by omega)).2]
              match g, (show 1 ≤ g by omega) with
              | g + 1, _ =>
                simp only [arrayPass2, tok_rbrack buf _ hbrack]
                have e2 : p + (renderValue v).length + 1 =
                    p + (renderElems (jelem_list.jcons v jelem_list.jnil)).length + 1 := by
                  rw [hlenE]
                rw [e2]
                simp [docElems]
        | jcons v2 rest2 =>
          have hsplitE : renderElems (jelem_list.jcons v
                (jelem_list.jcons v2 rest2)) ++ [']'] =
              renderValue v ++ (',' :: ' ' ::
                (renderElems (jelem_list.jcons v2 rest2) ++ [']'])) := by
            simp [renderElems]
          have hlenE : (renderElems (jelem_list.jcons v
                (jelem_list.jcons v2 rest2))).length =
              (renderValue v).length + 2 +
                (renderElems (jelem_list.jcons v2 rest2)).length := by
            simp [renderElems]
            omega
          obtain ⟨hE1r, hE2r⟩ := ihE (jelem_list.jcons v2 rest2) hsrest hrest
          constructor
          · intro buf size p n0 hchunk hsize
            have hc := chunk_congr hsplitE hchunk
            rw [chunk_append_iff] at hc
            obtain ⟨hval, htail⟩ := hc
            rw [chunk_cons_iff] at htail
            obtain ⟨hcomma, htail2⟩ := htail
            rw [chunk_cons_iff] at htail2
            obtain ⟨hspace, hrestc0⟩ := htail2
            have hrestc : chunk buf (p + (renderValue v).length + 2)
                (renderElems (jelem_list.jcons v2 rest2) ++ [']']) := by
              have e : p + (renderValue v).length + 1 + 1 =
                  p + (renderValue v).length + 2 := by omega
              rwa [e] at hrestc0
            obtain ⟨Ne, hNe⟩ := elem_step v hv hna hOB buf size p hval
              (Or.inl hcomma) (by rw [hlenE] at hsize; omega)
            obtain ⟨N1, h1⟩ := hE1r buf size (p + (renderValue v).length + 2) (n0 + 1)
              hrestc (by rw [hlenE] at hsize; omega)
            have hwsE : tokenizeString buf (p + (renderValue v).length + 1) =
                tokenizeString buf (p + (renderValue v).length + 2) := by
              rw [tokenizeString_ws buf _ hspace]
            refine ⟨Ne + N1 + 2, ?_⟩
            intro g hg
            match g, hg with
            | g + 1, hg =>
              rw [(hNe g (by omega)).1 n0]
              match g, (show N1 + 1 ≤ g by omega) with
              | g + 1, hg2 =>
                simp only [arrayPass1, tok_comma buf _ hcomma]
                rw [arrayPass1_congr buf size _ _ hwsE g _]
                rw [h1 g (by omega)]
                have e1 : n0 + 1 + elemCount (jelem_list.jcons v2 rest2) =
                    n0 + elemCount (jelem_list.jcons v
                      (jelem_list.jcons v2 rest2)) := by
                  simp [elemCount]
                  omega
                have e2 : p + (renderValue v).length + 2 +
                    (renderElems (jelem_list.jcons v2 rest2)).length + 1 =
                    p + (renderElems (jelem_list.jcons v
                      (jelem_list.jcons v2 rest2))).length + 1 := by
                  rw [hlenE]
                  omega
                rw [e1, e2]
          · intro buf size p hchunk hsize
            have hc := chunk_congr hsplitE hchunk
            rw [chunk_append_iff] at hc
            obtain ⟨hval, htail⟩ := hc
            rw [chunk_cons_iff] at htail
            obtain ⟨hcomma, htail2⟩ := htail
            rw [chunk_cons_iff] at htail2
            obtain ⟨hspace, hrestc0⟩ := htail2
            have hrestc : chunk buf (p + (renderValue v).length + 2)
                (renderElems (jelem_list.jcons v2 rest2) ++ [']']) := by
              have e : p + (renderValue v).length + 1 + 1 =
                  p + (renderValue v).length + 2 := by omega
              rwa [e] at hrestc0
            obtain ⟨Ne, hNe⟩ := elem_step v hv hna hOB buf size p hval
              (Or.inl hcomma) (by rw [hlenE] at hsize; omega)
            obtain ⟨N2, h2⟩ := hE2r buf size (p + (renderValue v).length + 2)
              hrestc (by rw [hlenE] at hsize; omega)
            have hwsE : tokenizeString buf (p + (renderValue v).length + 1) =
                tokenizeString buf (p + (renderValue v).length + 2) := by
              rw [tokenizeString_ws buf _ hspace]
            refine ⟨Ne + N2 + 2, ?_⟩
            intro g hg
            match g, hg with
            | g + 1, hg =>
              rw [(hNe g (by omega)).2]
              match g, (show N2 + 1 ≤ g by omega) with
              | g + 1, hg2 =>
                simp only [arrayPass2, tok_comma buf _ hcomma]
                rw [arrayPass2_congr buf size _ _ hwsE g]
                rw [h2 g (by omega)]
                have e2 : p + (renderValue v).length + 2 +
                    (renderElems (jelem_list.jcons v2 rest2)).length + 1 =
                    p + (renderElems (jelem_list.jcons v
                      (jelem_list.jcons v2 rest2))).length + 1 := by
                  rw [hlenE]
                  omega
                rw [e2]
                simp [docElems]

/-! ## Claim C3 — parse/serialize round trip -/

/-- C3 (amended): for every well-formed canonical document — a non-empty
member list with token-sized quote-free keys and strings, integer numbers
in `int32` range, non-empty nested objects, and arrays of scalars and
objects only — parsing the canonical single-line rendering yields exactly
the expected member tree with all keys, values and order preserved (and
`IsValid` true), and serializing that tree prints back exactly the input
text plus a newline.  The original claim's wider precondition (any valid
JSON object text without duplicate keys, exponents or escapes) is refuted
by `c3_counterexample_dropped_key`. -/
theorem c3_roundtrip_canonical (ms : jmember_list)
    (hwf : wfMs ms = true) (hcons : isConsMs ms = true) :
    ∃ N, ∀ g, N ≤ g →
      parseStringToJson g ('{' :: renderMembers ms ++ ['}'])
          ('{' :: renderMembers ms ++ ['}']).length 0 =
        some ({ First := docMembers ms, IsValid := true },
          ('{' :: renderMembers ms ++ ['}']).length) ∧
      printJsonObject { First := docMembers ms, IsValid := true } =
        some (String.mk ('{' :: renderMembers ms ++ ['}']) ++ "\n") := by
  have hML := (parse_render_main (sizeOf ms)).1 ms le_rfl hwf hcons
  have hchunkSelf : chunk ('{' :: renderMembers ms ++ ['}']) 0
      ('{' :: renderMembers ms ++ ['}']) := by
    intro k hk
    rw [Nat.zero_add]
    rfl
  have hchunk : chunk ('{' :: renderMembers ms ++ ['}']) 0
      (('{' :: renderMembers ms) ++ ['}']) := chunk_congr (by simp) hchunkSelf
  have hlen : ('{' :: renderMembers ms ++ ['}']).length =
      (renderMembers ms).length + 2 := by simp
  obtain ⟨N, hN⟩ := parse_object_render ms hML ('{' :: renderMembers ms ++ ['}'])
    ('{' :: renderMembers ms ++ ['}']).length 0 hchunk (by omega)
  have hchain : printMemberChain (docMembers ms) = some (String.mk (renderMembers ms)) :=
    (printDoc_round (sizeOf ms)).2.1 ms le_rfl hwf
  have hprint : printJsonObject { First := docMembers ms, IsValid := true } =
      some (String.mk ('{' :: renderMembers ms ++ ['}']) ++ "\n") := by
    cases ms with
    | nil => simp [isConsMs] at hcons
    | cons k v r =>
      rw [docMembers] at hchain ⊢
      simp only [printJsonObject, if_true]
      rw [printJsonMember]
      simp only [hchain, Option.bind_eq_bind, Option.bind_some, Option.map_some]
      refine congrArg some (String.ext ?_)
      simp [String.data_append]
  refine ⟨N, fun g hg => ⟨?_, hprint⟩⟩
  have h := hN g hg
  have e : 0 + (renderMembers ms).length + 2 =
      ('{' :: renderMembers ms ++ ['}']).length := by
    rw [hlen]
    omega
  rw [e] at h
  exact h

theorem c3_roundtrip_canonical_witness :
    wfMs (jmember_list.cons "a" (jdoc_value.jbool true) jmember_list.nil) = true ∧
    isConsMs (jmember_list.cons "a" (jdoc_value.jbool true) jmember_list.nil) = true ∧
    (∃ N, ∀ g, N ≤ g →
      parseStringToJson g ('{' :: renderMembers (jmember_list.cons "a"
          (jdoc_value.jbool true) jmember_list.nil) ++ ['}'])
          ('{' :: renderMembers (jmember_list.cons "a"
          (jdoc_value.jbool true) jmember_list.nil) ++ ['}']).length 0 =
        some ({ First := docMembers (jmember_list.cons "a"
            (jdoc_value.jbool true) jmember_list.nil), IsValid := true },
          ('{' :: renderMembers (jmember_list.cons "a"
          (jdoc_value.jbool true) jmember_list.nil) ++ ['}']).length) ∧
      printJsonObject { First := docMembers (jmember_list.cons "a"
          (jdoc_value.jbool true) jmember_list.nil), IsValid := true } =
        some (String.mk ('{' :: renderMembers (jmember_list.cons "a"
          (jdoc_value.jbool true) jmember_list.nil) ++ ['}']) ++ "\n")) := by
  have h1 : wfMs (jmember_list.cons "a" (jdoc_value.jbool true) jmember_list.nil) =
      true := by simp +decide [wfMs, wfV, strOK]
  have h2 : isConsMs (jmember_list.cons "a" (jdoc_value.jbool true) jmember_list.nil) =
      true := by simp [isConsMs]
  exact ⟨h1, h2, c3_roundtrip_canonical _ h1 h2⟩

/-- C3 counterexample: `{"a" : {}, "b" : true}` is a syntactically valid
JSON object text with no duplicate keys, no exponents and no embedded
quotes or escapes, yet `serialize(parse(text))` does not preserve its
keys: the parser hands the empty nested object to
`addJsonMember(..., json_object*)`, which rejects a child with no members,
so the member `"a"` is silently dropped (while `IsValid` stays true
because the member loop discards the nested parse's validity), and the
serializer prints only the `"b"` member. -/
theorem c3_counterexample_dropped_key :
    parseStringToJson 20 ("\x7b\"a\" : \x7b\x7d, \"b\" : true\x7d".toList)
        ("\x7b\"a\" : \x7b\x7d, \"b\" : true\x7d".toList).length 0 =
      some ({ First := [("b", json_value.boolean true)], IsValid := true }, 22) ∧
    printJsonObject { First := [("b", json_value.boolean true)], IsValid := true } =
      some "\x7b\"b\" : true\x7d\n" := by
  constructor
  · simp +decide [parseStringToJson, parseOuter, parseMembers, parseValue, parseComma,
      tokenizeString, wsSkipIdx, wsSkipGo, strEnd, strEndGo, numEnd, numEndGo, readChar,
      subStr, matchLit, isWhiteSpace, isNumber, addJsonMemberObject, addJsonMemberBoolean,
      appendJsonMember, isTrueLit]
  · simp +decide [printJsonObject, printJsonMember, printMemberChain, printJsonValue]
